import Mathlib

/-!
Verification development for the CalDAV synchronization engine
(`src/app/api/sync/route.ts`, discovery+report variant).

Modelling conventions (shallow embedding):
* JS `Date` instants are `Int` milliseconds since the Unix epoch; an invalid
  date is `none : Option Int`.
* The server's local time zone is modelled as a fixed offset `tz` (in ms):
  a wall-clock field tuple denotes the UTC instant `utcMillis fields - tz`.
* JS generic date parsing (`new Date(value)` on arbitrary text) is
  implementation-defined and is abstracted as a function parameter
  `jsParse : String → Option Int`.
* The two regex-based XML scanners (`calendar-data` extraction and the
  multistatus response scanner) are abstracted as function parameters
  `extract` / `parseMS`; every claim here is about the code downstream or
  upstream of those scans.
* Network calls are abstracted as functions from URL to `(status, body)`.
-/

abbrev Instant := Int

/-! ## Character and digit utilities -/

def isDigits (l : List Char) : Bool := l.all Char.isDigit

def digitsToNat (l : List Char) : Nat :=
  l.foldl (fun a c => a * 10 + (c.toNat - 48)) 0

/-- `digitsToNat` of the slice `[a, b)` of a character list. -/
def sliceNat (cs : List Char) (a b : Nat) : Nat :=
  digitsToNat ((cs.drop a).take (b - a))

/-! ## Gregorian calendar arithmetic (semantics of the JS `Date` constructor
on ISO-format strings) -/

def isLeap (y : Nat) : Bool :=
  (y % 4 = 0 && y % 100 ≠ 0) || y % 400 = 0

def daysInMonth (y m : Nat) : Nat :=
  if m = 2 then (if isLeap y then 29 else 28)
  else if m = 4 ∨ m = 6 ∨ m = 9 ∨ m = 11 then 30
  else 31

/-- An ISO `YYYY-MM-DD` date string is accepted by the JS `Date` constructor
exactly when the fields are in range. -/
def validDate (y m d : Nat) : Bool :=
  1 ≤ m && m ≤ 12 && 1 ≤ d && d ≤ daysInMonth y m

/-- JS accepts `HH:MM:SS` with `HH ≤ 23`, plus the special value `24:00:00`. -/
def validTime (h mi s : Nat) : Bool :=
  (h ≤ 23 && mi ≤ 59 && s ≤ 59) || (h = 24 && mi = 0 && s = 0)

/-- Days since 1970-01-01 of a proleptic-Gregorian civil date. -/
def daysFromCivil (y : Int) (m d : Nat) : Int :=
  let y2 : Int := if m ≤ 2 then y - 1 else y
  let era : Int := (if 0 ≤ y2 then y2 else y2 - 399) / 400
  let yoe : Int := y2 - era * 400
  let mp : Int := ((m : Int) + 9) % 12
  let doy : Int := (153 * mp + 2) / 5 + (d : Int) - 1
  let doe : Int := yoe * 365 + yoe / 4 - yoe / 100 + doy
  era * 146097 + doe - 719468

/-- UTC epoch milliseconds of a wall-clock field tuple. -/
def utcMillis (y m d h mi s : Nat) : Int :=
  daysFromCivil (y : Int) m d * 86400000
    + ((h : Int) * 3600000 + (mi : Int) * 60000 + (s : Int) * 1000)

/-- `new Date("YYYY-MM-DDTHH:MM:SS(Z)")`: some instant when the fields are
valid, `none` (Invalid Date) otherwise. -/
def mkUtcDate (y m d h mi s : Nat) : Option Instant :=
  if validDate y m d && validTime h mi s then some (utcMillis y m d h mi s)
  else none

/-! ## `parseICalDate` (source lines 541-570) -/

/-- `s.toUpperCase()` (ASCII range). -/
def jsToUpper (s : String) : String := String.mk (s.toList.map Char.toUpper)

/-- Lookup in a JS-object modelled as an insertion-ordered association list:
the key is matched after upper-casing, the last binding wins (later
assignments to the same key overwrite earlier ones). -/
def lastLookup (ps : List (String × String)) (k : String) : Option String :=
  ps.foldl (fun acc p => if jsToUpper p.1 = k then some p.2 else acc) none

/-- `/^\d{8}T\d{6}Z$/i` -/
def utcShape (cs : List Char) : Bool :=
  cs.length = 16 && isDigits (cs.take 8)
    && (cs.getD 8 ' ' = 'T' || cs.getD 8 ' ' = 't')
    && isDigits ((cs.drop 9).take 6)
    && (cs.getD 15 ' ' = 'Z' || cs.getD 15 ' ' = 'z')

/-- `/^\d{8}T\d{6}$/i` -/
def localShape (cs : List Char) : Bool :=
  cs.length = 15 && isDigits (cs.take 8)
    && (cs.getD 8 ' ' = 'T' || cs.getD 8 ' ' = 't')
    && isDigits (cs.drop 9)

/-- `/^\d{8}$/` -/
def dateShape (cs : List Char) : Bool :=
  cs.length = 8 && isDigits cs

/-- `parseICalDate(value, params)`: returns the decoded date (or `none`) and
the all-day flag.  `jsParse` stands for the generic `new Date(value)`
fallback; `tz` is the fixed local-zone offset. -/
def parseICalDate (jsParse : String → Option Instant) (tz : Int)
    (value : String) (params : List (String × String)) :
    Option Instant × Bool :=
  let cs := value.toList
  let isDateOnly : Bool :=
    (lastLookup params "VALUE" == some "DATE") || dateShape cs
  let date : Option Instant :=
    if utcShape cs then
      mkUtcDate (sliceNat cs 0 4) (sliceNat cs 4 6) (sliceNat cs 6 8)
        (sliceNat cs 9 11) (sliceNat cs 11 13) (sliceNat cs 13 15)
    else if localShape cs then
      (mkUtcDate (sliceNat cs 0 4) (sliceNat cs 4 6) (sliceNat cs 6 8)
        (sliceNat cs 9 11) (sliceNat cs 11 13) (sliceNat cs 13 15)).map
        (fun t => t - tz)
    else if dateShape cs then
      (mkUtcDate (sliceNat cs 0 4) (sliceNat cs 4 6) (sliceNat cs 6 8)
        0 0 0).map (fun t => t - tz)
    else jsParse value
  (date, isDateOnly)

/-! ## `addDuration` (source lines 572-586)

The regex `^P(?:(\d+)D)?(?:T(?:(\d+)H)?(?:(\d+)M)?(?:(\d+)S)?)?$` is
deterministic because every numeric component is committed only when its
terminating letter follows, so it is modelled by the recursive parser
below. -/

def takeDigits : List Char → List Char × List Char
  | [] => ([], [])
  | c :: cs =>
    if c.isDigit then
      let p := takeDigits cs
      (c :: p.1, p.2)
    else ([], c :: cs)

/-- Match the optional group `(?:(\d+)X)?` at the head of the input:
returns the captured value (0 when the group does not participate) and the
rest of the input. -/
def parseComp (letter : Char) (cs : List Char) : Nat × List Char :=
  match takeDigits cs with
  | ([], _) => (0, cs)
  | (ds, rest) =>
    match rest with
    | [] => (0, cs)
    | c :: rest2 => if c = letter then (digitsToNat ds, rest2) else (0, cs)

def parseDur (cs : List Char) : Option (Nat × Nat × Nat × Nat) :=
  match cs with
  | [] => none
  | c :: r0 =>
    if c = 'P' then
      let pd := parseComp 'D' r0
      match pd.2 with
      | [] => some (pd.1, 0, 0, 0)
      | c2 :: r2 =>
        if c2 = 'T' then
          let ph := parseComp 'H' r2
          let pm := parseComp 'M' ph.2
          let ps := parseComp 'S' pm.2
          if ps.2 = [] then some (pd.1, ph.1, pm.1, ps.1) else none
        else none
    else none

/-- `addDuration(startDate, durationStr)`. -/
def addDuration (startDate : Instant) (durationStr : String) : Instant :=
  match parseDur durationStr.toList with
  | none => startDate
  | some (d, h, m, s) =>
    startDate + (((d * 24 + h) * 60 * 60 + m * 60 + s) : Int) * 1000

/-! ## JS string splitting

`jsSplit s sep` models `s.split(sep)` for a nonempty string separator:
left-to-right, non-overlapping occurrences. -/

def listSplitF (sep : List Char) : Nat → List Char → List (List Char)
  | _, [] => [[]]
  | 0, l => [l]
  | fuel + 1, x :: xs =>
    if sep ≠ [] ∧ sep.isPrefixOf (x :: xs) then
      [] :: listSplitF sep fuel ((x :: xs).drop sep.length)
    else
      match listSplitF sep fuel xs with
      | [] => [[x]]
      | y :: ys => (x :: y) :: ys

def listSplit (sep l : List Char) : List (List Char) := listSplitF sep l.length l

def jsSplit (s sep : String) : List String :=
  (listSplit sep.toList s.toList).map String.mk

/-- The whitespace stripped by JS `trim()` (ASCII part). -/
def wsChar (c : Char) : Bool :=
  c = ' ' ∨ c = '\t' ∨ c = '\n' ∨ c = '\r' ∨ c = '\x0b' ∨ c = '\x0c'

/-- `s.trim()`. -/
def jsTrim (s : String) : String :=
  String.mk (((s.toList.dropWhile wsChar).reverse.dropWhile wsChar).reverse)

/-- `s.startsWith(p)`. -/
def strStartsWith (s p : String) : Bool := p.toList.isPrefixOf s.toList

/-- `s.endsWith(p)`. -/
def strEndsWith (s p : String) : Bool := p.toList.isSuffixOf s.toList

/-- `text.split(/\r?\n/)`: split on newlines, where a line feed consumes an
immediately preceding carriage return. -/
def splitLinesAux : List (List Char) → List String
  | [] => []
  | [x] => [String.mk x]
  | x :: xs =>
    String.mk (if x.getLast? = some '\r' then x.dropLast else x) :: splitLinesAux xs

def splitLinesRE (s : String) : List String :=
  splitLinesAux (listSplit ['\n'] s.toList)

/-- `icsText.replace(/\r?\n[ \t]/g, "")`: remove every newline that is
immediately followed by a space or tab (line unfolding). -/
def unfoldChars : List Char → List Char
  | '\r' :: '\n' :: c :: rest =>
    if c = ' ' ∨ c = '\t' then unfoldChars rest
    else '\r' :: '\n' :: unfoldChars (c :: rest)
  | '\n' :: c :: rest =>
    if c = ' ' ∨ c = '\t' then unfoldChars rest
    else '\n' :: unfoldChars (c :: rest)
  | c :: rest => c :: unfoldChars rest
  | [] => []

/-! ## `parseSingleVEvent` (source lines 596-678) -/

structure ParsedEvent where
  id : String
  summary : String
  start : Instant
  end_ : Instant
  isAllDay : Bool
deriving DecidableEq, Repr

structure VEventData where
  summary : String
  start : Option Instant
  end_ : Option Instant
  isAllDay : Bool
  uid : String
deriving DecidableEq, Repr

def initVEventData : VEventData := ⟨"", none, none, false, ""⟩

/-- Split a content line at its first colon into the property name, the
`;`-separated parameter segments of the key, and the raw value.  `none`
models the `if (!rawLine) return` and `colonIdx === -1` skips. -/
def splitProp (rawLine : String) : Option (String × List String × String) :=
  if rawLine = "" then none
  else
    match jsSplit rawLine ":" with
    | [] => none
    | [_] => none
    | k :: rest =>
      match jsSplit k ";" with
      | [] => none
      | name :: ps => some (name, ps, String.intercalate ":" rest)

/-- Build the `params` object: each segment is split at its first `=`; the
binding is kept when key and value are nonempty, with the key upper-cased.
Later bindings override earlier ones (`lastLookup`). -/
def buildParams (parts : List String) : List (String × String) :=
  parts.foldl (fun acc part =>
    match jsSplit part "=" with
    | [] => acc
    | [_] => acc
    | k :: vs =>
      let v := String.intercalate "=" vs
      if k ≠ "" ∧ v ≠ "" then acc ++ [(jsToUpper k, v)] else acc) []

/-- The body of the `lines.forEach` callback. -/
def processLine (jsParse : String → Option Instant) (tz : Int)
    (d : VEventData) (rawLine : String) : VEventData :=
  match splitProp rawLine with
  | none => d
  | some (name, paramParts, rawValue) =>
    let params := buildParams paramParts
    let key := jsToUpper name
    if key = "SUMMARY" then { d with summary := jsTrim rawValue }
    else if key = "UID" then { d with uid := jsTrim rawValue }
    else if key = "DTSTART" then
      let parsed := parseICalDate jsParse tz (jsTrim rawValue) params
      { d with start := parsed.1, isAllDay := d.isAllDay || parsed.2 }
    else if key = "DTEND" then
      let parsed := parseICalDate jsParse tz (jsTrim rawValue) params
      { d with end_ := parsed.1, isAllDay := d.isAllDay || parsed.2 }
    else if key = "DURATION" then
      match d.start, d.end_ with
      | some st, none => { d with end_ := some (addDuration st (jsTrim rawValue)) }
      | _, _ => d
    else d

def parseSingleVEvent (jsParse : String → Option Instant) (tz : Int)
    (text : String) : Option ParsedEvent :=
  if text = "" then none
  else
    let d := (splitLinesRE text).foldl (processLine jsParse tz) initVEventData
    match d.start with
    | none => none
    | some st =>
      let en : Instant :=
        match d.end_ with
        | some e => e
        | none => if d.isAllDay then st + 24 * 60 * 60 * 1000 else st + 60 * 60 * 1000
      some
        { id := if d.uid = "" then "event-" ++ toString st else d.uid
          summary := if d.summary = "" then "Untitled Event" else d.summary
          start := st
          end_ := en
          isAllDay := d.isAllDay }

/-! ## `parseICSEvents` (source lines 680-693) -/

def parseICSEvents (jsParse : String → Option Instant) (tz : Int)
    (icsText : String) : List ParsedEvent :=
  if icsText = "" then []
  else
    let unfolded := String.mk (unfoldChars icsText.toList)
    ((jsSplit unfolded "BEGIN:VEVENT").drop 1).filterMap
      (fun chunk => parseSingleVEvent jsParse tz ((jsSplit chunk "END:VEVENT").headD ""))

/-! ## `parseCalDavResponse` (source lines 695-735) -/

/-- The deduplication key `` `${event.id}-${event.start.getTime()}` ``. -/
def dedupKey (e : ParsedEvent) : String := e.id ++ "-" ++ toString e.start

/-- The filtering pass of `parseCalDavResponse`: window check, then
first-occurrence deduplication by `dedupKey`.  (The source's null check on
`start`/`end` is vacuous here: both fields of `ParsedEvent` are total.) -/
def windowDedup (rangeStart rangeEnd : Instant) :
    List String → List ParsedEvent → List ParsedEvent
  | _, [] => []
  | seen, e :: rest =>
    if e.end_ ≤ rangeStart ∨ rangeEnd ≤ e.start then
      windowDedup rangeStart rangeEnd seen rest
    else if dedupKey e ∈ seen then
      windowDedup rangeStart rangeEnd seen rest
    else e :: windowDedup rangeStart rangeEnd (dedupKey e :: seen) rest

/-- The sort comparator `(a, b) => a.start.getTime() - b.start.getTime()`.
JS `Array.prototype.sort` is a stable sort by this ordering; a stable sort's
output is uniquely determined by the input order and the comparator, so it is
modelled by insertion sort. -/
def byStart (a b : ParsedEvent) : Prop := a.start ≤ b.start

instance : DecidableRel byStart :=
  fun a b => inferInstanceAs (Decidable (a.start ≤ b.start))

instance : IsTotal ParsedEvent byStart := ⟨fun a b => le_total a.start b.start⟩

instance : IsTrans ParsedEvent byStart := ⟨fun _ _ _ hab hbc => le_trans hab hbc⟩

def parseCalDavResponse (extract : String → List String)
    (jsParse : String → Option Instant) (tz : Int)
    (xmlText : String) (rangeStart rangeEnd : Instant) : List ParsedEvent :=
  if xmlText = "" then []
  else
    let events := (extract xmlText).flatMap (parseICSEvents jsParse tz)
    List.insertionSort byStart (windowDedup rangeStart rangeEnd [] events)

/-! ## Discovery, query and the orchestration loop (source lines 432-538,
737-773 and the body of `POST`, lines 775-934) -/

def statusOk (status : Nat) : Bool := 200 ≤ status && status ≤ 299

structure DiscoveredCalendar where
  href : String
  displayName : String
  isCalendar : Bool
deriving DecidableEq, Repr

/-- `discoverCalendars`: any non-2xx response (including 401/403) yields an
empty list; `parseMS` abstracts the multistatus-scanning loop applied to a
2xx body. -/
def discoverCalendars (parseMS : String → List DiscoveredCalendar)
    (resp : Nat × String) : List DiscoveredCalendar :=
  if statusOk resp.1 then parseMS resp.2 else []

/-- `` `${url.protocol}//${url.host}` `` of `new URL(u)`, modelled for
`scheme://host[/...]` URLs without userinfo or default-port elision;
`none` models the `catch` branch. -/
def jsOrigin (u : String) : Option String :=
  match jsSplit u "://" with
  | scheme :: rest :: restMore =>
    if scheme = "" then none
    else
      let after := String.intercalate "://" (rest :: restMore)
      let host := String.mk (after.toList.takeWhile (fun c => c ≠ '/'))
      if host = "" then none else some (scheme ++ "://" ++ host)
  | _ => none

def resolveCalendarUrl (baseUrl href : String) : String :=
  if strStartsWith href "/" then
    match jsOrigin baseUrl with
    | some origin => origin ++ href
    | none => baseUrl ++ href
  else if strEndsWith baseUrl "/" then baseUrl ++ href
  else baseUrl ++ "/" ++ href

/-- `queryCalendarEvents`: `some events` on a 2xx response, `none` for the
`{ events: [], success: false }` outcome. -/
def queryCalendarEvents (extract : String → List String)
    (jsParse : String → Option Instant) (tz : Int)
    (rangeStart rangeEnd : Instant) (resp : Nat × String) :
    Option (List ParsedEvent) :=
  if statusOk resp.1 then
    some (parseCalDavResponse extract jsParse tz resp.2 rangeStart rangeEnd)
  else none

structure SyncState where
  allEvents : List ParsedEvent
  successUrl : Option String
  discoveredAny : Bool
deriving DecidableEq, Repr

/-- The inner `for (const calendar of calendars)` loop. -/
def calFold (query : String → Option (List ParsedEvent)) (homeUrl : String)
    (st : SyncState) (cals : List DiscoveredCalendar) : SyncState :=
  cals.foldl (fun s cal =>
    match query (resolveCalendarUrl homeUrl cal.href) with
    | some evs =>
      { s with
        allEvents := s.allEvents ++ evs
        successUrl := match s.successUrl with | none => some homeUrl | u => u }
    | none => s) st

/-- The outer `for (const homeUrl of calendarHomeUrls)` loop, with the
early `break` once `allEvents` is nonempty. -/
def syncLoop (discover : String → List DiscoveredCalendar)
    (query : String → Option (List ParsedEvent)) :
    List String → SyncState → SyncState
  | [], st => st
  | u :: rest, st =>
    let cals := discover u
    if cals = [] then syncLoop discover query rest st
    else
      let st2 := calFold query u { st with discoveredAny := true } cals
      if st2.allEvents = [] then syncLoop discover query rest st2 else st2

/-- The flatten + dedup + sort step of `POST` (source lines 852-858). -/
def dedupEvents : List String → List ParsedEvent → List ParsedEvent
  | _, [] => []
  | seen, e :: rest =>
    if dedupKey e ∈ seen then dedupEvents seen rest
    else e :: dedupEvents (dedupKey e :: seen) rest

def dedupSortEvents (evs : List ParsedEvent) : List ParsedEvent :=
  List.insertionSort byStart (dedupEvents [] evs)

/-- The per-event upsert loop against the `ExternalEvent` store, projected
to the account's set of stored `externalId`s (an update leaves the row
count unchanged; a create appends). -/
def reconcile (store : List String) (evs : List ParsedEvent) : List String :=
  evs.foldl (fun st e => if e.id ∈ st then st else st ++ [e.id]) store

inductive SyncOutcome where
  | noCalendars
  | ok (events : List ParsedEvent) (successUrl : Option String)
deriving DecidableEq, Repr

/-- The outcome-relevant tail of `POST`: the no-calendars failure (lines
845-850), dedup + sort (852-858), and the stored-server-URL rewrite
(910-915).  Returns the outcome and the account's new stored URL. -/
def runSync (discover : String → List DiscoveredCalendar)
    (query : String → Option (List ParsedEvent))
    (homeUrls : List String) (storedUrl : String) : SyncOutcome × String :=
  let st := syncLoop discover query homeUrls ⟨[], none, false⟩
  if st.discoveredAny = false then (SyncOutcome.noCalendars, storedUrl)
  else
    let newStored :=
      match st.successUrl with
      | some u => if u ≠ storedUrl then u else storedUrl
      | none => storedUrl
    (SyncOutcome.ok (dedupSortEvents st.allEvents) st.successUrl, newStored)

/-! ## Digit rendering (used to state the literal-shape claims) -/

def digitChar (n : Nat) : Char :=
  match n with
  | 0 => '0' | 1 => '1' | 2 => '2' | 3 => '3' | 4 => '4'
  | 5 => '5' | 6 => '6' | 7 => '7' | 8 => '8' | 9 => '9'
  | _ => '0'

def pad2 (n : Nat) : List Char := [digitChar (n / 10), digitChar (n % 10)]

def pad4 (n : Nat) : List Char :=
  [digitChar (n / 1000), digitChar (n / 100 % 10), digitChar (n / 10 % 10), digitChar (n % 10)]

def dateLit (y m d : Nat) : String := String.mk (pad4 y ++ pad2 m ++ pad2 d)

def localLit (y m d h mi s : Nat) : String :=
  String.mk (pad4 y ++ pad2 m ++ pad2 d ++ ('T' :: (pad2 h ++ pad2 mi ++ pad2 s)))

def utcLit (y m d h mi s : Nat) : String :=
  String.mk (pad4 y ++ pad2 m ++ pad2 d ++ ('T' :: (pad2 h ++ pad2 mi ++ pad2 s)) ++ ['Z'])

theorem digitChar_isDigit (n : Nat) : (digitChar n).isDigit = true := by
  unfold digitChar
  split <;> decide

theorem digitChar_toNat (n : Nat) (h : n < 10) : (digitChar n).toNat = 48 + n := by
  interval_cases n <;> rfl

theorem digitsToNat_pad2 (n : Nat) (h : n < 100) : digitsToNat (pad2 n) = n := by
  have h1 : n / 10 < 10 := by omega
  have h2 : n % 10 < 10 := by omega
  simp [pad2, digitsToNat, digitChar_toNat _ h1, digitChar_toNat _ h2]
  omega

theorem digitsToNat_pad4 (n : Nat) (h : n < 10000) : digitsToNat (pad4 n) = n := by
  have h1 : n / 1000 < 10 := by omega
  have h2 : n / 100 % 10 < 10 := by omega
  have h3 : n / 10 % 10 < 10 := by omega
  have h4 : n % 10 < 10 := by omega
  simp [pad4, digitsToNat, digitChar_toNat _ h1, digitChar_toNat _ h2,
        digitChar_toNat _ h3, digitChar_toNat _ h4]
  omega

theorem parseICalDate_dateLit (jsParse : String → Option Instant) (tz : Int)
    (params : List (String × String)) (y m d : Nat)
    (hy : y < 10000) (hm : m < 100) (hd : d < 100) :
    parseICalDate jsParse tz (dateLit y m d) params =
      ((mkUtcDate y m d 0 0 0).map (fun t => t - tz), true) := by
  have e4 := digitsToNat_pad4 y hy
  have em := digitsToNat_pad2 m hm
  have ed := digitsToNat_pad2 d hd
  simp [parseICalDate, dateLit, utcShape, localShape, dateShape, sliceNat,
        isDigits, pad4, pad2, digitChar_isDigit, String.toList]
  all_goals simp only [pad4, pad2] at e4 em ed
  all_goals rw [e4, em, ed]

theorem parseICalDate_localLit (jsParse : String → Option Instant) (tz : Int)
    (params : List (String × String)) (y m d h mi s : Nat)
    (hy : y < 10000) (hm : m < 100) (hd : d < 100)
    (hh : h < 100) (hmi : mi < 100) (hs : s < 100) :
    parseICalDate jsParse tz (localLit y m d h mi s) params =
      ((mkUtcDate y m d h mi s).map (fun t => t - tz),
       lastLookup params "VALUE" == some "DATE") := by
  have e4 := digitsToNat_pad4 y hy
  have em := digitsToNat_pad2 m hm
  have ed := digitsToNat_pad2 d hd
  have eh := digitsToNat_pad2 h hh
  have emi := digitsToNat_pad2 mi hmi
  have es := digitsToNat_pad2 s hs
  simp [parseICalDate, localLit, utcShape, localShape, dateShape, sliceNat,
        isDigits, pad4, pad2, digitChar_isDigit, String.toList]
  all_goals simp only [pad4, pad2] at e4 em ed eh emi es
  all_goals rw [e4, em, ed, eh, emi, es]

theorem parseICalDate_utcLit (jsParse : String → Option Instant) (tz : Int)
    (params : List (String × String)) (y m d h mi s : Nat)
    (hy : y < 10000) (hm : m < 100) (hd : d < 100)
    (hh : h < 100) (hmi : mi < 100) (hs : s < 100) :
    parseICalDate jsParse tz (utcLit y m d h mi s) params =
      (mkUtcDate y m d h mi s,
       lastLookup params "VALUE" == some "DATE") := by
  have e4 := digitsToNat_pad4 y hy
  have em := digitsToNat_pad2 m hm
  have ed := digitsToNat_pad2 d hd
  have eh := digitsToNat_pad2 h hh
  have emi := digitsToNat_pad2 mi hmi
  have es := digitsToNat_pad2 s hs
  simp [parseICalDate, utcLit, utcShape, localShape, dateShape, sliceNat,
        isDigits, pad4, pad2, digitChar_isDigit, String.toList]
  all_goals simp only [pad4, pad2] at e4 em ed eh emi es
  all_goals rw [e4, em, ed, eh, emi, es]

/-- Claim C7: `parseICalDate` recognizes exactly three literal shapes — an
8-digit bare date yields an all-day instant at local midnight, date+`T`+time
without a zone suffix yields a naive local time, date+`T`+time+`Z` yields a
UTC instant — falls back to generic date parsing (`jsParse`) for any other
text, returns no value when that is unparseable, and reports `isAllDay` true
exactly when the value is date-only or the explicit `VALUE` hint is `DATE`. -/
theorem C7_parseDateValue_shapes :
    (∀ (jsParse : String → Option Instant) (tz : Int) (params : List (String × String))
        (y m d : Nat), y < 10000 → m < 100 → d < 100 →
        parseICalDate jsParse tz (dateLit y m d) params =
          ((mkUtcDate y m d 0 0 0).map (fun t => t - tz), true))
    ∧ (∀ (jsParse : String → Option Instant) (tz : Int) (params : List (String × String))
        (y m d h mi s : Nat), y < 10000 → m < 100 → d < 100 → h < 100 → mi < 100 → s < 100 →
        parseICalDate jsParse tz (localLit y m d h mi s) params =
          ((mkUtcDate y m d h mi s).map (fun t => t - tz),
           lastLookup params "VALUE" == some "DATE"))
    ∧ (∀ (jsParse : String → Option Instant) (tz : Int) (params : List (String × String))
        (y m d h mi s : Nat), y < 10000 → m < 100 → d < 100 → h < 100 → mi < 100 → s < 100 →
        parseICalDate jsParse tz (utcLit y m d h mi s) params =
          (mkUtcDate y m d h mi s, lastLookup params "VALUE" == some "DATE"))
    ∧ (∀ (jsParse : String → Option Instant) (tz : Int) (value : String)
        (params : List (String × String)),
        utcShape value.toList = false → localShape value.toList = false →
        dateShape value.toList = false →
        (parseICalDate jsParse tz value params).1 = jsParse value)
    ∧ (∀ (jsParse : String → Option Instant) (tz : Int) (value : String)
        (params : List (String × String)),
        (parseICalDate jsParse tz value params).2 =
          ((lastLookup params "VALUE" == some "DATE") || dateShape value.toList)) := by
  refine ⟨?_, ?_, ?_, ?_, ?_⟩
  · intro jsParse tz params y m d hy hm hd
    exact parseICalDate_dateLit jsParse tz params y m d hy hm hd
  · intro jsParse tz params y m d h mi s hy hm hd hh hmi hs
    exact parseICalDate_localLit jsParse tz params y m d h mi s hy hm hd hh hmi hs
  · intro jsParse tz params y m d h mi s hy hm hd hh hmi hs
    exact parseICalDate_utcLit jsParse tz params y m d h mi s hy hm hd hh hmi hs
  · intro jsParse tz value params h1 h2 h3
    simp only [String.toList] at h1 h2 h3
    simp [parseICalDate, String.toList, h1, h2, h3]
  · intro jsParse tz value params
    simp [parseICalDate]

/-- Witness for `C7_parseDateValue_shapes` at concrete literals of all
three shapes and a generic fallback input. -/
theorem C7_witness :
    parseICalDate (fun _ => none) 0 (dateLit 2026 2 1) [] = (some (utcMillis 2026 2 1 0 0 0), true)
    ∧ parseICalDate (fun _ => none) 0 (localLit 2026 1 14 9 30 0) [] =
        (some (utcMillis 2026 1 14 9 30 0), false)
    ∧ parseICalDate (fun _ => none) 0 (utcLit 2026 1 14 9 0 0) [("VALUE", "DATE")] =
        (some (utcMillis 2026 1 14 9 0 0), true)
    ∧ (parseICalDate (fun _ => none) 0 "last tuesday" []).1 = none := by
  refine ⟨?_, ?_, ?_, ?_⟩
  · have h := C7_parseDateValue_shapes.1 (fun _ => none) 0 [] 2026 2 1
      (by decide) (by decide) (by decide)
    rw [h]; decide
  · have h := C7_parseDateValue_shapes.2.1 (fun _ => none) 0 [] 2026 1 14 9 30 0
      (by decide) (by decide) (by decide) (by decide) (by decide) (by decide)
    rw [h]; decide
  · have h := C7_parseDateValue_shapes.2.2.1 (fun _ => none) 0 [("VALUE", "DATE")] 2026 1 14 9 0 0
      (by decide) (by decide) (by decide) (by decide) (by decide) (by decide)
    rw [h]; decide
  · exact C7_parseDateValue_shapes.2.2.2.1 (fun _ => none) 0 "last tuesday" []
      (by decide) (by decide) (by decide)

/-- Claim C9: the date parser consults only the `VALUE` property parameter —
two parameter lists agreeing on `VALUE` give identical results — so a
date+`T`+time value carrying a `TZID` parameter is parsed as naive
server-local time; the named time zone is ignored. -/
theorem C9_tzid_ignored :
    (∀ (jsParse : String → Option Instant) (tz : Int) (value : String)
        (p1 p2 : List (String × String)),
        lastLookup p1 "VALUE" = lastLookup p2 "VALUE" →
        parseICalDate jsParse tz value p1 = parseICalDate jsParse tz value p2)
    ∧ (∀ (jsParse : String → Option Instant) (tz : Int) (zone : String)
        (y m d h mi s : Nat), y < 10000 → m < 100 → d < 100 → h < 100 → mi < 100 → s < 100 →
        parseICalDate jsParse tz (localLit y m d h mi s) [("TZID", zone)] =
          ((mkUtcDate y m d h mi s).map (fun t => t - tz), false)) := by
  constructor
  · intro jsParse tz value p1 p2 h
    simp only [parseICalDate, h]
  · intro jsParse tz zone y m d h mi s hy hm hd hh hmi hs
    rw [parseICalDate_localLit jsParse tz [("TZID", zone)] y m d h mi s hy hm hd hh hmi hs]
    simp only [lastLookup, List.foldl]
    rw [if_neg (by decide : ¬ (jsToUpper "TZID" = "VALUE"))]
    rfl

/-- Witness for `C9_tzid_ignored`: a local date-time with
`TZID=America/New_York` is decoded as naive local time. -/
theorem C9_witness :
    parseICalDate (fun _ => none) 3600000 (localLit 2026 1 14 9 0 0)
        [("TZID", "America/New_York")] =
      (some (utcMillis 2026 1 14 9 0 0 - 3600000), false) := by
  have h := C9_tzid_ignored.2 (fun _ => none) 3600000 "America/New_York" 2026 1 14 9 0 0
    (by decide) (by decide) (by decide) (by decide) (by decide) (by decide)
  rw [h]; decide

/-! ## The duration grammar `P#DT#H#M#S` -/

def durOpt (o : Option (List Char)) (letter : Char) : List Char :=
  match o with
  | none => []
  | some ds => ds ++ [letter]

def durVal (o : Option (List Char)) : Nat :=
  match o with
  | none => 0
  | some ds => digitsToNat ds

def durOk (o : Option (List Char)) : Bool :=
  match o with
  | none => true
  | some l => !l.isEmpty && isDigits l

/-- The duration strings generated by `P#DT#H#M#S` with every component
optional: `tF` records whether the `T` block is present. -/
def durChars (dD : Option (List Char)) (tF : Bool) (dH dM dS : Option (List Char)) : List Char :=
  'P' :: (durOpt dD 'D' ++
    (if tF then 'T' :: (durOpt dH 'H' ++ durOpt dM 'M' ++ durOpt dS 'S') else []))

def durWF (dD : Option (List Char)) (tF : Bool) (dH dM dS : Option (List Char)) : Prop :=
  durOk dD = true ∧ durOk dH = true ∧ durOk dM = true ∧ durOk dS = true
    ∧ (tF = false → dH = none ∧ dM = none ∧ dS = none)

theorem durOk_some {l : List Char} (h : durOk (some l) = true) :
    l ≠ [] ∧ isDigits l = true := by
  simp [durOk] at h
  exact ⟨by simpa [List.isEmpty_iff] using h.1, h.2⟩

theorem takeDigits_spec (cs : List Char) :
    (takeDigits cs).1 ++ (takeDigits cs).2 = cs
    ∧ isDigits (takeDigits cs).1 = true
    ∧ ∀ c, (takeDigits cs).2.head? = some c → c.isDigit = false := by
  induction cs with
  | nil => simp [takeDigits, isDigits]
  | cons c cs ih =>
    by_cases h : c.isDigit = true
    · simpa [takeDigits, h, isDigits] using ih
    · simp [takeDigits, h, isDigits]

theorem takeDigits_append (ds r : List Char) (hds : isDigits ds = true)
    (hr : ∀ c, r.head? = some c → c.isDigit = false) :
    takeDigits (ds ++ r) = (ds, r) := by
  induction ds with
  | nil =>
    cases r with
    | nil => rfl
    | cons c rr => simp [takeDigits, hr c rfl]
  | cons d ds ih =>
    simp [isDigits] at hds
    have ih2 := ih (by simp [isDigits]; exact hds.2)
    simp [takeDigits, hds.1, ih2]

theorem parseComp_opt (letter : Char) (o : Option (List Char)) (rest : List Char)
    (hwf : durOk o = true)
    (hl : letter.isDigit = false)
    (hrest : rest = []
      ∨ (∃ c r, rest = c :: r ∧ c.isDigit = false ∧ c ≠ letter)
      ∨ (∃ ds c r, rest = ds ++ c :: r ∧ ds ≠ [] ∧ isDigits ds = true
          ∧ c.isDigit = false ∧ c ≠ letter)) :
    parseComp letter (durOpt o letter ++ rest) = (durVal o, rest) := by
  cases o with
  | some ds =>
    obtain ⟨hne, hdig⟩ := durOk_some hwf
    have ht : takeDigits (ds ++ letter :: rest) = (ds, letter :: rest) :=
      takeDigits_append ds (letter :: rest) hdig (by intro c hc; simp at hc; rw [← hc]; exact hl)
    have : durOpt (some ds) letter ++ rest = ds ++ letter :: rest := by simp [durOpt]
    rw [this]
    cases ds with
    | nil => exact absurd rfl hne
    | cons d0 ds0 =>
      simp only [List.cons_append] at ht
      simp [parseComp, ht, durVal]
  | none =>
    simp only [durOpt, List.nil_append, durVal]
    rcases hrest with h0 | ⟨c, r, hcr, hcd, hcl⟩ | ⟨ds, c, r, hcr, hne, hdig, hcd, hcl⟩
    · subst h0; rfl
    · subst hcr
      simp [parseComp, takeDigits, hcd]
    · subst hcr
      have ht : takeDigits (ds ++ c :: r) = (ds, c :: r) :=
        takeDigits_append ds (c :: r) hdig (by intro c2 hc2; simp at hc2; rw [← hc2]; exact hcd)
      cases ds with
      | nil => exact absurd rfl hne
      | cons d0 ds0 =>
        simp only [List.cons_append] at ht
        simp [parseComp, ht, hcl]

theorem parseDur_complete (dD : Option (List Char)) (tF : Bool)
    (dH dM dS : Option (List Char)) (h : durWF dD tF dH dM dS) :
    parseDur (durChars dD tF dH dM dS) =
      some (durVal dD, durVal dH, durVal dM, durVal dS) := by
  obtain ⟨hD, hH, hM, hS, hT⟩ := h
  cases tF with
  | false =>
    obtain ⟨e1, e2, e3⟩ := hT rfl
    subst e1; subst e2; subst e3
    have hd : parseComp 'D' (durOpt dD 'D' ++ []) = (durVal dD, []) :=
      parseComp_opt 'D' dD [] hD (by decide) (Or.inl rfl)
    simp only [List.append_nil] at hd
    simp [parseDur, durChars, hd, durVal]
  | true =>
    have hrest : ('T' :: (durOpt dH 'H' ++ durOpt dM 'M' ++ durOpt dS 'S')) = [] ∨
        (∃ c r, ('T' :: (durOpt dH 'H' ++ durOpt dM 'M' ++ durOpt dS 'S')) = c :: r
          ∧ c.isDigit = false ∧ c ≠ 'D') ∨
        (∃ ds c r, ('T' :: (durOpt dH 'H' ++ durOpt dM 'M' ++ durOpt dS 'S')) = ds ++ c :: r
          ∧ ds ≠ [] ∧ isDigits ds = true ∧ c.isDigit = false ∧ c ≠ 'D') :=
      Or.inr (Or.inl ⟨'T', _, rfl, by decide, by decide⟩)
    have hd := parseComp_opt 'D' dD _ hD (by decide) hrest
    have hrestH : (durOpt dM 'M' ++ durOpt dS 'S') = [] ∨
        (∃ c r, (durOpt dM 'M' ++ durOpt dS 'S') = c :: r ∧ c.isDigit = false ∧ c ≠ 'H') ∨
        (∃ ds c r, (durOpt dM 'M' ++ durOpt dS 'S') = ds ++ c :: r
          ∧ ds ≠ [] ∧ isDigits ds = true ∧ c.isDigit = false ∧ c ≠ 'H') := by
      cases dM with
      | some dsM =>
        obtain ⟨hne, hdig⟩ := durOk_some hM
        exact Or.inr (Or.inr ⟨dsM, 'M', durOpt dS 'S', by simp [durOpt], hne, hdig, by decide, by decide⟩)
      | none =>
        cases dS with
        | some dsS =>
          obtain ⟨hne, hdig⟩ := durOk_some hS
          exact Or.inr (Or.inr ⟨dsS, 'S', [], by simp [durOpt], hne, hdig, by decide, by decide⟩)
        | none => exact Or.inl (by simp [durOpt])
    have hh := parseComp_opt 'H' dH _ hH (by decide) hrestH
    have hrestM : durOpt dS 'S' = [] ∨
        (∃ c r, durOpt dS 'S' = c :: r ∧ c.isDigit = false ∧ c ≠ 'M') ∨
        (∃ ds c r, durOpt dS 'S' = ds ++ c :: r
          ∧ ds ≠ [] ∧ isDigits ds = true ∧ c.isDigit = false ∧ c ≠ 'M') := by
      cases dS with
      | some dsS =>
        obtain ⟨hne, hdig⟩ := durOk_some hS
        exact Or.inr (Or.inr ⟨dsS, 'S', [], by simp [durOpt], hne, hdig, by decide, by decide⟩)
      | none => exact Or.inl (by simp [durOpt])
    have hm := parseComp_opt 'M' dM _ hM (by decide) hrestM
    have hs : parseComp 'S' (durOpt dS 'S' ++ []) = (durVal dS, []) :=
      parseComp_opt 'S' dS [] hS (by decide) (Or.inl rfl)
    simp only [List.append_nil] at hs
    simp only [List.append_assoc] at hd
    simp [parseDur, durChars, hd, hh, hm, hs]

theorem parseComp_split (letter : Char) (cs : List Char) (v : Nat) (rest : List Char)
    (h : parseComp letter cs = (v, rest)) :
    (v = 0 ∧ rest = cs)
    ∨ (∃ ds, ds ≠ [] ∧ isDigits ds = true ∧ (letter :: rest).head? = some letter
        ∧ cs = ds ++ letter :: rest ∧ v = digitsToNat ds) := by
  obtain ⟨hsplit, hdig, hhead⟩ := takeDigits_spec cs
  rcases htd : takeDigits cs with ⟨tds, trest⟩
  rw [htd] at hsplit hdig hhead
  cases tds with
  | nil =>
    left
    simp [parseComp, htd] at h
    exact ⟨h.1.symm, h.2.symm⟩
  | cons d0 ds0 =>
    cases trest with
    | nil =>
      left
      simp [parseComp, htd] at h
      exact ⟨h.1.symm, h.2.symm⟩
    | cons c2 r2 =>
      by_cases hc2 : c2 = letter
      · subst hc2
        right
        simp only [parseComp, htd] at h
        simp at h
        refine ⟨d0 :: ds0, by simp, hdig, rfl, ?_, h.1.symm⟩
        rw [← h.2, ← hsplit]
      · left
        simp only [parseComp, htd] at h
        simp [hc2] at h
        exact ⟨h.1.symm, h.2.symm⟩

theorem parseComp_split' (letter : Char) (cs : List Char) (v : Nat) (rest : List Char)
    (h : parseComp letter cs = (v, rest)) :
    ∃ o, durOk o = true ∧ cs = durOpt o letter ++ rest ∧ v = durVal o := by
  rcases parseComp_split letter cs v rest h with ⟨hv, hr⟩ | ⟨ds, hne, hdig, _, hcs, hv⟩
  · exact ⟨none, rfl, by simp [durOpt, hr], by simp [durVal, hv]⟩
  · refine ⟨some ds, ?_, ?_, by simp [durVal, hv]⟩
    · simp [durOk, hdig, List.isEmpty_iff, hne]
    · simp [durOpt, hcs]

theorem parseDur_sound (cs : List Char) (q : Nat × Nat × Nat × Nat)
    (h : parseDur cs = some q) :
    ∃ dD tF dH dM dS, durWF dD tF dH dM dS ∧ cs = durChars dD tF dH dM dS
      ∧ q = (durVal dD, durVal dH, durVal dM, durVal dS) := by
  cases cs with
  | nil => simp [parseDur] at h
  | cons c r0 =>
    by_cases hc : c = 'P'
    case neg => simp [parseDur, hc] at h
    subst hc
    simp only [parseDur, if_pos] at h
    rcases hpd : parseComp 'D' r0 with ⟨dv, r1⟩
    rw [hpd] at h
    cases r1 with
    | nil =>
      simp only [Option.some.injEq] at h
      obtain ⟨oD, hokD, heqD, hvD⟩ := parseComp_split' 'D' r0 dv [] hpd
      refine ⟨oD, false, none, none, none,
        ⟨hokD, rfl, rfl, rfl, fun _ => ⟨rfl, rfl, rfl⟩⟩, ?_, ?_⟩
      · simp [durChars, ← heqD]
      · simp [← h, hvD, durVal]
    | cons c2 r2 =>
      by_cases hc2 : c2 = 'T'
      case neg => simp [hc2] at h
      subst hc2
      simp only [if_pos] at h
      rcases hph : parseComp 'H' r2 with ⟨hv, r3⟩
      rw [hph] at h
      rcases hpm : parseComp 'M' r3 with ⟨mv, r4⟩
      rw [hpm] at h
      rcases hps : parseComp 'S' r4 with ⟨sv, r5⟩
      rw [hps] at h
      rcases hr5 : r5 with _ | ⟨c5, r6⟩
      · rw [hr5] at h hps
        simp only [if_pos, Option.some.injEq] at h
        obtain ⟨oD, hokD, heqD, hvD⟩ := parseComp_split' 'D' r0 dv ('T' :: r2) hpd
        obtain ⟨oH, hokH, heqH, hvH⟩ := parseComp_split' 'H' r2 hv r3 hph
        obtain ⟨oM, hokM, heqM, hvM⟩ := parseComp_split' 'M' r3 mv r4 hpm
        obtain ⟨oS, hokS, heqS, hvS⟩ := parseComp_split' 'S' r4 sv [] hps
        refine ⟨oD, true, oH, oM, oS,
          ⟨hokD, hokH, hokM, hokS, fun hf => by simp at hf⟩, ?_, ?_⟩
        · simp only [List.append_nil] at heqS
          simp [durChars, heqD, heqH, heqM, heqS, List.append_assoc]
        · simp [← h, hvD, hvH, hvM, hvS]
      · rw [hr5] at h
        simp at h

/-- Claim C8: for every duration string matching the grammar `P#DT#H#M#S`
(all components optional, rendered by `durChars`), `addDuration` returns the
start instant advanced by `days*86400 + hours*3600 + minutes*60 + seconds`
seconds; for every string not matching the grammar, it returns an instant
equal to `start`, unchanged. -/
theorem C8_addDuration :
    (∀ (start : Instant) (dD : Option (List Char)) (tF : Bool) (dH dM dS : Option (List Char)),
        durWF dD tF dH dM dS →
        addDuration start (String.mk (durChars dD tF dH dM dS)) =
          start + ((durVal dD * 86400 + durVal dH * 3600 + durVal dM * 60 + durVal dS : Nat) : Int) * 1000)
    ∧ (∀ (start : Instant) (s : String),
        (∀ dD tF dH dM dS, durWF dD tF dH dM dS → s ≠ String.mk (durChars dD tF dH dM dS)) →
        addDuration start s = start) := by
  constructor
  · intro start dD tF dH dM dS hwf
    have hc := parseDur_complete dD tF dH dM dS hwf
    have htl : (String.mk (durChars dD tF dH dM dS)).toList = durChars dD tF dH dM dS := rfl
    simp only [addDuration, htl, hc]
    push_cast
    ring
  · intro start s hs
    rcases hq : parseDur s.toList with _ | ⟨d, h2, m2, s2⟩
    · simp only [String.toList] at hq
      simp [addDuration, String.toList, hq]
    · obtain ⟨dD, tF, dH, dM, dS, hwf, heq, hv⟩ := parseDur_sound s.toList _ hq
      have hstr : s = String.mk (durChars dD tF dH dM dS) := by
        cases s with
        | mk data => simpa [String.toList] using congrArg String.mk heq
      exact absurd hstr (hs dD tF dH dM dS hwf)

/-- Witness for `C8_addDuration`: `"P1DT2H3S"` advances the start by
93603 seconds, and `"1 hour"` (not in the grammar) leaves it unchanged. -/
theorem C8_witness :
    addDuration 0 (String.mk (durChars (some ['1']) true (some ['2']) none (some ['3']))) = 93603000
    ∧ addDuration 5 "1 hour" = 5 := by
  constructor
  · have h := C8_addDuration.1 0 (some ['1']) true (some ['2']) none (some ['3'])
      ⟨by decide, by decide, by decide, by decide, by intro hf; exact absurd hf (by decide)⟩
    rw [h]
    decide
  · refine C8_addDuration.2 5 "1 hour" ?_
    intro dD tF dH dM dS hwf heq
    have hc := parseDur_complete dD tF dH dM dS hwf
    have htl : "1 hour".toList = durChars dD tF dH dM dS := by
      rw [heq]
      rfl
    rw [← htl] at hc
    have hn : parseDur "1 hour".toList = none := by decide
    rw [hn] at hc
    exact Option.noConfusion hc

/-! ## Invariants of the VEVENT line fold -/

/-- Every `SUMMARY` content line of this line has a blank (after trimming)
value; vacuously true for non-`SUMMARY` lines. -/
def lineSummaryBlank (line : String) : Bool :=
  match splitProp line with
  | none => true
  | some (nm, _, v) => if jsToUpper nm = "SUMMARY" then jsTrim v == "" else true

/-- This content line is neither a `DTEND` nor a `DURATION` property. -/
def lineNoEnd (line : String) : Bool :=
  match splitProp line with
  | none => true
  | some (nm, _, _) => !(jsToUpper nm = "DTEND") && !(jsToUpper nm = "DURATION")

theorem processLine_summary (jsParse : String → Option Instant) (tz : Int)
    (d : VEventData) (line : String)
    (h : lineSummaryBlank line = true) (hd : d.summary = "") :
    (processLine jsParse tz d line).summary = "" := by
  unfold processLine
  unfold lineSummaryBlank at h
  rcases hsp : splitProp line with _ | ⟨nm, ps, v⟩
  · exact hd
  · rw [hsp] at h
    by_cases h1 : jsToUpper nm = "SUMMARY"
    · simp only [h1, if_pos, beq_iff_eq] at h
      simp [h1, h]
    · simp only [if_neg h1]
      split_ifs <;> try simp [hd]
      all_goals rcases d.start with _ | st <;> rcases d.end_ with _ | en <;> simp [hd]

theorem processLine_end (jsParse : String → Option Instant) (tz : Int)
    (d : VEventData) (line : String)
    (h : lineNoEnd line = true) (hd : d.end_ = none) :
    (processLine jsParse tz d line).end_ = none := by
  unfold processLine
  unfold lineNoEnd at h
  rcases hsp : splitProp line with _ | ⟨nm, ps, v⟩
  · exact hd
  · rw [hsp] at h
    simp only [Bool.and_eq_true, Bool.not_eq_true', decide_eq_false_iff_not] at h
    obtain ⟨hne, hnd⟩ := h
    dsimp only
    split_ifs <;> simp_all

theorem foldl_summary (jsParse : String → Option Instant) (tz : Int)
    (lines : List String) (d : VEventData) (hd : d.summary = "")
    (h : ∀ line ∈ lines, lineSummaryBlank line = true) :
    (lines.foldl (processLine jsParse tz) d).summary = "" := by
  induction lines generalizing d with
  | nil => exact hd
  | cons l ls ih =>
    simp only [List.foldl_cons]
    exact ih (processLine jsParse tz d l)
      (processLine_summary jsParse tz d l (h l (by simp)) hd)
      (fun line hm => h line (by simp [hm]))

theorem foldl_end (jsParse : String → Option Instant) (tz : Int)
    (lines : List String) (d : VEventData) (hd : d.end_ = none)
    (h : ∀ line ∈ lines, lineNoEnd line = true) :
    (lines.foldl (processLine jsParse tz) d).end_ = none := by
  induction lines generalizing d with
  | nil => exact hd
  | cons l ls ih =>
    simp only [List.foldl_cons]
    exact ih (processLine jsParse tz d l)
      (processLine_end jsParse tz d l (h l (by simp)) hd)
      (fun line hm => h line (by simp [hm]))

/-- Claim C10: for every VEVENT body with a parseable start whose `SUMMARY`
lines (if any) are all empty after trimming, `parseSingleVEvent` returns an
event whose title is exactly the string `"Untitled Event"`. -/
theorem C10_untitled (jsParse : String → Option Instant) (tz : Int)
    (text : String) (ev : ParsedEvent)
    (h : ∀ line ∈ splitLinesRE text, lineSummaryBlank line = true)
    (hp : parseSingleVEvent jsParse tz text = some ev) :
    ev.summary = "Untitled Event" := by
  by_cases ht : text = ""
  · rw [ht] at hp
    simp [parseSingleVEvent] at hp
  · unfold parseSingleVEvent at hp
    rw [if_neg ht] at hp
    dsimp only at hp
    have hsum := foldl_summary jsParse tz (splitLinesRE text) initVEventData rfl h
    rcases hst : ((splitLinesRE text).foldl (processLine jsParse tz) initVEventData).start
      with _ | st
    · rw [hst] at hp
      simp at hp
    · rw [hst] at hp
      simp only [Option.some.injEq] at hp
      rw [← hp]
      simp [hsum]

/-- Claim C2 (amended): when a VEVENT body carries no `DTEND` and no
`DURATION` property, the end synthesized by defaulting satisfies
`end > start`.  (The original claim — that `end > start` also holds with an
explicit `DTEND` — is refuted by `C2_counterexample`: an explicit
`DTEND` equal to `DTSTART` is kept as-is.) -/
theorem C2_defaulted_end (jsParse : String → Option Instant) (tz : Int)
    (text : String) (ev : ParsedEvent)
    (h : ∀ line ∈ splitLinesRE text, lineNoEnd line = true)
    (hp : parseSingleVEvent jsParse tz text = some ev) :
    ev.start < ev.end_ := by
  by_cases ht : text = ""
  · rw [ht] at hp
    simp [parseSingleVEvent] at hp
  · unfold parseSingleVEvent at hp
    rw [if_neg ht] at hp
    dsimp only at hp
    have hend := foldl_end jsParse tz (splitLinesRE text) initVEventData rfl h
    rcases hst : ((splitLinesRE text).foldl (processLine jsParse tz) initVEventData).start
      with _ | st
    · rw [hst] at hp
      simp at hp
    · rw [hst, hend] at hp
      simp only [Option.some.injEq] at hp
      rw [← hp]
      dsimp only
      split_ifs <;> norm_num

/-- Claim C2 is false as stated: a VEVENT whose explicit `DTEND` equals its
`DTSTART` is returned with `end = start`. -/
theorem C2_counterexample :
    parseSingleVEvent (fun _ => none) 0
        "UID:x\nDTSTART:20240101T100000Z\nDTEND:20240101T100000Z" =
      some ⟨"x", "Untitled Event", utcMillis 2024 1 1 10 0 0, utcMillis 2024 1 1 10 0 0, false⟩
    ∧ ¬ (utcMillis 2024 1 1 10 0 0 < utcMillis 2024 1 1 10 0 0) := by
  constructor
  · decide
  · exact lt_irrefl _

/-- Witness for `C2_defaulted_end` at a concrete body with no `DTEND` or
`DURATION` line. -/
theorem C2_witness :
    (splitLinesRE "UID:u\nDTSTART:20260114T090000Z").all lineNoEnd = true
    ∧ ((parseSingleVEvent (fun _ => none) 0 "UID:u\nDTSTART:20260114T090000Z").map
        (fun e => decide (e.start < e.end_))) = some true := by
  refine ⟨by decide, ?_⟩
  rcases hp : parseSingleVEvent (fun _ => none) 0 "UID:u\nDTSTART:20260114T090000Z"
    with _ | ⟨ev⟩
  · exact absurd hp (by decide)
  · have := C2_defaulted_end (fun _ => none) 0 _ ev (by decide) hp
    simp [this]

/-- Witness for `C10_untitled` at a concrete body with no `SUMMARY` line. -/
theorem C10_witness :
    (splitLinesRE "UID:u\nDTSTART:20260114T090000Z").all lineSummaryBlank = true
    ∧ ((parseSingleVEvent (fun _ => none) 0 "UID:u\nDTSTART:20260114T090000Z").map
        (fun e => e.summary)) = some "Untitled Event" := by
  refine ⟨by decide, ?_⟩
  rcases hp : parseSingleVEvent (fun _ => none) 0 "UID:u\nDTSTART:20260114T090000Z"
    with _ | ⟨ev⟩
  · exact absurd hp (by decide)
  · have := C10_untitled (fun _ => none) 0 _ ev (by decide) hp
    simp [this]

/-! ## Deduplication and reconciliation lemmas -/

theorem dedupEvents_sublist (seen : List String) (xs : List ParsedEvent) :
    (dedupEvents seen xs).Sublist xs := by
  induction xs generalizing seen with
  | nil => simp [dedupEvents]
  | cons e rest ih =>
    unfold dedupEvents
    by_cases h : dedupKey e ∈ seen
    · simp only [if_pos h]
      exact (ih seen).cons e
    · simp only [if_neg h]
      exact (ih (dedupKey e :: seen)).cons₂ e

theorem dedupEvents_fresh (seen : List String) (xs : List ParsedEvent) :
    ∀ e ∈ dedupEvents seen xs, dedupKey e ∉ seen := by
  induction xs generalizing seen with
  | nil => simp [dedupEvents]
  | cons e rest ih =>
    unfold dedupEvents
    by_cases h : dedupKey e ∈ seen
    · simp only [if_pos h]
      exact ih seen
    · simp only [if_neg h]
      intro e2 he2
      rcases List.mem_cons.mp he2 with he2 | he2
      · rw [he2]; exact h
      · have := ih (dedupKey e :: seen) e2 he2
        exact fun hmem => this (List.mem_cons_of_mem _ hmem)

theorem dedupEvents_pairwise (seen : List String) (xs : List ParsedEvent) :
    (dedupEvents seen xs).Pairwise (fun a b => dedupKey a ≠ dedupKey b) := by
  induction xs generalizing seen with
  | nil => simp [dedupEvents]
  | cons e rest ih =>
    unfold dedupEvents
    by_cases h : dedupKey e ∈ seen
    · simp only [if_pos h]
      exact ih seen
    · simp only [if_neg h]
      refine List.Pairwise.cons ?_ (ih (dedupKey e :: seen))
      intro e2 he2
      have := dedupEvents_fresh (dedupKey e :: seen) rest e2 he2
      exact fun heq => this (heq ▸ List.mem_cons_self _ _)

theorem dedupEvents_filter_mem (seen : List String) (xs : List ParsedEvent)
    (k : String) (hk : k ∈ seen) :
    (dedupEvents seen xs).filter (fun e => dedupKey e == k) = [] := by
  induction xs generalizing seen with
  | nil => simp [dedupEvents]
  | cons e rest ih =>
    unfold dedupEvents
    by_cases h : dedupKey e ∈ seen
    · simp only [if_pos h]
      exact ih seen hk
    · simp only [if_neg h]
      have hne : ¬ (dedupKey e == k) = true := by
        simp only [beq_iff_eq]
        intro heq
        exact h (heq ▸ hk)
      simp only [List.filter_cons, hne, if_neg]
      exact ih (dedupKey e :: seen) (List.mem_cons_of_mem _ hk)

theorem dedupEvents_filter_fresh (seen : List String) (xs : List ParsedEvent)
    (k : String) (hk : k ∉ seen) :
    (dedupEvents seen xs).filter (fun e => dedupKey e == k) =
      (xs.filter (fun e => dedupKey e == k)).take 1 := by
  induction xs generalizing seen with
  | nil => simp [dedupEvents]
  | cons e rest ih =>
    unfold dedupEvents
    by_cases h : dedupKey e ∈ seen
    · have hne : ¬ (dedupKey e == k) = true := by
        simp only [beq_iff_eq]
        intro heq
        exact hk (heq ▸ h)
      simp only [if_pos h, List.filter_cons, hne, if_neg]
      exact ih seen hk
    · simp only [if_neg h]
      by_cases hek : (dedupKey e == k) = true
      · have hkk : k = dedupKey e := (beq_iff_eq.mp hek).symm
        simp only [List.filter_cons, hek, if_pos]
        rw [dedupEvents_filter_mem (dedupKey e :: seen) rest k
          (hkk ▸ List.mem_cons_self _ _)]
        simp
      · simp only [List.filter_cons, hek, if_neg]
        exact ih (dedupKey e :: seen)
          (fun hmem => by
            rcases List.mem_cons.mp hmem with hh | hh
            · exact hek (beq_iff_eq.mpr hh.symm)
            · exact hk hh)

theorem mem_reconcile_of_mem (s : List String) (evs : List ParsedEvent)
    (x : String) (hx : x ∈ s) : x ∈ reconcile s evs := by
  induction evs generalizing s with
  | nil => exact hx
  | cons e rest ih =>
    unfold reconcile
    simp only [List.foldl_cons]
    by_cases h : e.id ∈ s
    · simp only [if_pos h]
      exact ih s hx
    · simp only [if_neg h]
      exact ih _ (List.mem_append_left _ hx)

theorem id_mem_reconcile (s : List String) (evs : List ParsedEvent)
    (e : ParsedEvent) (he : e ∈ evs) : e.id ∈ reconcile s evs := by
  induction evs generalizing s with
  | nil => exact absurd he (List.not_mem_nil e)
  | cons e2 rest ih =>
    unfold reconcile
    simp only [List.foldl_cons]
    rcases List.mem_cons.mp he with he | he
    · subst he
      by_cases h : e.id ∈ s
      · simp only [if_pos h]
        exact mem_reconcile_of_mem s rest e.id h
      · simp only [if_neg h]
        exact mem_reconcile_of_mem _ rest e.id (List.mem_append_right _ (by simp))
    · by_cases h : e2.id ∈ s
      · simp only [if_pos h]
        exact ih s he
      · simp only [if_neg h]
        exact ih _ he

theorem reconcile_noop (s : List String) (evs : List ParsedEvent)
    (h : ∀ e ∈ evs, e.id ∈ s) : reconcile s evs = s := by
  induction evs with
  | nil => rfl
  | cons e rest ih =>
    unfold reconcile
    simp only [List.foldl_cons, if_pos (h e (by simp))]
    exact ih (fun e2 he2 => h e2 (by simp [he2]))

/-- Claim C6 (amended): deduplication keys events by the string
`id ++ "-" ++ startMillis` (`dedupKey`), which coincides with the pair
(identifier, start instant) except for rare encoding collisions
(`C6_counterexample`); it keeps a subsequence of the input (first occurrence
per key, later same-key events dropped, never merged), no two kept events
share a key, and the reconciler is idempotent: running it twice on an
identical raw result set leaves the stored row count unchanged. -/
theorem C6_dedup_reconcile :
    (∀ xs : List ParsedEvent, (dedupEvents [] xs).Sublist xs)
    ∧ (∀ xs : List ParsedEvent,
        (dedupEvents [] xs).Pairwise (fun a b => dedupKey a ≠ dedupKey b))
    ∧ (∀ (xs : List ParsedEvent) (k : String),
        (dedupEvents [] xs).filter (fun e => dedupKey e == k) =
          (xs.filter (fun e => dedupKey e == k)).take 1)
    ∧ (∀ (store : List String) (xs : List ParsedEvent),
        (reconcile (reconcile store (dedupSortEvents xs)) (dedupSortEvents xs)).length =
          (reconcile store (dedupSortEvents xs)).length) := by
  refine ⟨fun xs => dedupEvents_sublist [] xs,
          fun xs => dedupEvents_pairwise [] xs,
          fun xs k => dedupEvents_filter_fresh [] xs k (by simp),
          fun store xs => ?_⟩
  rw [reconcile_noop _ _ (fun e he => id_mem_reconcile store (dedupSortEvents xs) e he)]

/-- Claim C6 is false as stated: the dedup key is a string concatenation,
so the distinct pairs `("a-", 12)` and `("a", -12)` collide on the key
`"a--12"` and the second event is dropped although it is not a duplicate of
the first under (identifier, start)-keying. -/
theorem C6_counterexample :
    dedupEvents [] [⟨"a-", "x", 12, 13, false⟩, ⟨"a", "y", -12, 13, false⟩] =
      [⟨"a-", "x", 12, 13, false⟩]
    ∧ ("a-" : String) ≠ "a" ∧ (12 : Instant) ≠ -12 := by
  refine ⟨by decide, by decide, by decide⟩

theorem windowDedup_filter (ws we : Instant) (seen : List String)
    (xs : List ParsedEvent)
    (h : xs.Pairwise (fun a b => dedupKey a ≠ dedupKey b))
    (h2 : ∀ e ∈ xs, dedupKey e ∉ seen) :
    windowDedup ws we seen xs =
      xs.filter (fun e => decide (ws < e.end_) && decide (e.start < we)) := by
  induction xs generalizing seen with
  | nil => simp [windowDedup]
  | cons e rest ih =>
    have hpw := List.pairwise_cons.mp h
    unfold windowDedup
    by_cases hw : e.end_ ≤ ws ∨ we ≤ e.start
    · have hpred : ¬ (decide (ws < e.end_) && decide (e.start < we)) = true := by
        rcases hw with hw | hw <;> simp <;> intro h0 <;> linarith
      simp only [if_pos hw, List.filter_cons, hpred, if_neg]
      exact ih seen hpw.2 (fun e2 he2 => h2 e2 (List.mem_cons_of_mem _ he2))
    · have hpred : (decide (ws < e.end_) && decide (e.start < we)) = true := by
        push_neg at hw
        simp [hw.1, hw.2]
      have hseen : dedupKey e ∉ seen := h2 e (List.mem_cons_self _ _)
      simp only [if_neg hw, if_neg hseen, List.filter_cons, hpred, if_pos]
      congr 1
      exact ih (dedupKey e :: seen) hpw.2 (fun e2 he2 => by
        intro hmem
        rcases List.mem_cons.mp hmem with hh | hh
        · exact hpw.1 e2 he2 hh.symm
        · exact h2 e2 (List.mem_cons_of_mem _ he2) hh)

/-- Claim C3 (amended): for a raw query result whose parsed events have
pairwise-distinct dedup keys, `parseCalDavResponse` keeps an event exactly
when `end > windowStart` and `start < windowEnd`, and returns the survivors
sorted ascending by start instant.  (Without the distinct-keys hypothesis
the parser also drops later events sharing a key with an earlier one —
`C3_counterexample`.) -/
theorem C3_window_filter (extract : String → List String)
    (jsParse : String → Option Instant) (tz : Int) (xml : String)
    (ws we : Instant) (hxml : xml ≠ "")
    (hkeys : ((extract xml).flatMap (parseICSEvents jsParse tz)).Pairwise
      (fun a b => dedupKey a ≠ dedupKey b)) :
    (∀ e, e ∈ parseCalDavResponse extract jsParse tz xml ws we ↔
      (e ∈ (extract xml).flatMap (parseICSEvents jsParse tz)
        ∧ ws < e.end_ ∧ e.start < we))
    ∧ (parseCalDavResponse extract jsParse tz xml ws we).Pairwise
        (fun a b => a.start ≤ b.start) := by
  unfold parseCalDavResponse
  rw [if_neg hxml]
  dsimp only
  constructor
  · intro e
    rw [List.mem_insertionSort, windowDedup_filter ws we [] _ hkeys (by simp),
      List.mem_filter]
    simp
  · exact List.sorted_insertionSort byStart
      (windowDedup ws we [] ((extract xml).flatMap (parseICSEvents jsParse tz)))

/-- Two raw VEVENTs with the same UID and DTSTART but different DTEND. -/
def dupKeyIcs : String :=
  "BEGIN:VEVENT\nUID:u\nDTSTART:20240101T000000Z\nDTEND:20240102T000000Z\nEND:VEVENT\nBEGIN:VEVENT\nUID:u\nDTSTART:20240101T000000Z\nDTEND:20240103T000000Z\nEND:VEVENT"

def dupKeyEv1 : ParsedEvent :=
  ⟨"u", "Untitled Event", utcMillis 2024 1 1 0 0 0, utcMillis 2024 1 2 0 0 0, false⟩

def dupKeyEv2 : ParsedEvent :=
  ⟨"u", "Untitled Event", utcMillis 2024 1 1 0 0 0, utcMillis 2024 1 3 0 0 0, false⟩

set_option maxRecDepth 10000 in
/-- Claim C3 is false as stated: `dupKeyEv2` is in the raw result set and
satisfies the window condition, yet it is not kept — the response parser
also deduplicates by `dedupKey`. -/
theorem C3_counterexample :
    ((fun s => [s] : String → List String) dupKeyIcs).flatMap
        (parseICSEvents (fun _ => none) 0) = [dupKeyEv1, dupKeyEv2]
    ∧ parseCalDavResponse (fun s => [s]) (fun _ => none) 0 dupKeyIcs 0 4000000000000 =
        [dupKeyEv1]
    ∧ (0 : Instant) < dupKeyEv2.end_ ∧ dupKeyEv2.start < 4000000000000
    ∧ dupKeyEv1 ≠ dupKeyEv2 := by
  refine ⟨by decide, by decide, by decide, by decide, by decide⟩

/-- Four raw VEVENTs around the window `[2024-01-02, 2024-01-10)`: ending
exactly at the window start, starting exactly at the window end, fully
inside, and overlapping the window start by one second. -/
def bndIcs : String :=
  "BEGIN:VEVENT\nUID:a\nDTSTART:20240101T000000Z\nDTEND:20240102T000000Z\nEND:VEVENT\nBEGIN:VEVENT\nUID:b\nDTSTART:20240110T000000Z\nDTEND:20240111T000000Z\nEND:VEVENT\nBEGIN:VEVENT\nUID:c\nDTSTART:20240105T000000Z\nDTEND:20240106T000000Z\nEND:VEVENT\nBEGIN:VEVENT\nUID:d\nDTSTART:20240101T000000Z\nDTEND:20240102T000001Z\nEND:VEVENT"

def bndEvA : ParsedEvent :=
  ⟨"a", "Untitled Event", utcMillis 2024 1 1 0 0 0, utcMillis 2024 1 2 0 0 0, false⟩

def bndEvB : ParsedEvent :=
  ⟨"b", "Untitled Event", utcMillis 2024 1 10 0 0 0, utcMillis 2024 1 11 0 0 0, false⟩

def bndEvC : ParsedEvent :=
  ⟨"c", "Untitled Event", utcMillis 2024 1 5 0 0 0, utcMillis 2024 1 6 0 0 0, false⟩

def bndEvD : ParsedEvent :=
  ⟨"d", "Untitled Event", utcMillis 2024 1 1 0 0 0, utcMillis 2024 1 2 0 0 1, false⟩

set_option maxRecDepth 40000 in
/-- Witness for `C3_window_filter` at the boundary scenario: an event
ending exactly at the window start and one starting exactly at the window
end are excluded; one inside and one overlapping the start by one second are
included. -/
theorem C3_witness :
    bndEvA ∉ parseCalDavResponse (fun s => [s]) (fun _ => none) 0 bndIcs
        (utcMillis 2024 1 2 0 0 0) (utcMillis 2024 1 10 0 0 0)
    ∧ bndEvB ∉ parseCalDavResponse (fun s => [s]) (fun _ => none) 0 bndIcs
        (utcMillis 2024 1 2 0 0 0) (utcMillis 2024 1 10 0 0 0)
    ∧ bndEvC ∈ parseCalDavResponse (fun s => [s]) (fun _ => none) 0 bndIcs
        (utcMillis 2024 1 2 0 0 0) (utcMillis 2024 1 10 0 0 0)
    ∧ bndEvD ∈ parseCalDavResponse (fun s => [s]) (fun _ => none) 0 bndIcs
        (utcMillis 2024 1 2 0 0 0) (utcMillis 2024 1 10 0 0 0) := by
  have hiff := (C3_window_filter (fun s => [s]) (fun _ => none) 0 bndIcs
    (utcMillis 2024 1 2 0 0 0) (utcMillis 2024 1 10 0 0 0) (by decide) (by decide)).1
  refine ⟨fun hm => ?_, fun hm => ?_,
    (hiff bndEvC).mpr (by decide), (hiff bndEvD).mpr (by decide)⟩
  · exact absurd ((hiff bndEvA).mp hm).2.1 (by decide)
  · exact absurd ((hiff bndEvB).mp hm).2.2 (by decide)

/-! ## Orchestration-loop lemmas -/

theorem calFold_discoveredAny (query : String → Option (List ParsedEvent))
    (u : String) (st : SyncState) (cals : List DiscoveredCalendar) :
    (calFold query u st cals).discoveredAny = st.discoveredAny := by
  induction cals generalizing st with
  | nil => rfl
  | cons c cals ih =>
    unfold calFold
    simp only [List.foldl_cons]
    rcases query (resolveCalendarUrl u c.href) with _ | evs
    · exact ih st
    · exact ih _

theorem calFold_noop (query : String → Option (List ParsedEvent))
    (u : String) (st : SyncState) (cals : List DiscoveredCalendar)
    (h : ∀ c ∈ cals, query (resolveCalendarUrl u c.href) = none) :
    calFold query u st cals = st := by
  induction cals with
  | nil => rfl
  | cons c cals ih =>
    unfold calFold
    simp only [List.foldl_cons, h c (by simp)]
    exact ih (fun c2 hc2 => h c2 (by simp [hc2]))

theorem calFold_successUrl_some (query : String → Option (List ParsedEvent))
    (u : String) (st : SyncState) (cals : List DiscoveredCalendar) (x : String)
    (h : st.successUrl = some x) :
    (calFold query u st cals).successUrl = some x := by
  induction cals generalizing st with
  | nil => exact h
  | cons c cals ih =>
    unfold calFold
    simp only [List.foldl_cons]
    rcases query (resolveCalendarUrl u c.href) with _ | evs
    · exact ih st h
    · exact ih _ (by simp [h])

theorem calFold_successUrl_hit (query : String → Option (List ParsedEvent))
    (u : String) (st : SyncState) (cals : List DiscoveredCalendar)
    (h : st.successUrl = none)
    (hp : cals.any (fun c => (query (resolveCalendarUrl u c.href)).isSome) = true) :
    (calFold query u st cals).successUrl = some u := by
  induction cals generalizing st with
  | nil => simp at hp
  | cons c cals ih =>
    unfold calFold
    simp only [List.foldl_cons]
    rcases hq : query (resolveCalendarUrl u c.href) with _ | evs
    · simp only [List.any_cons, hq, Option.isSome_none, Bool.false_or] at hp
      exact ih st h hp
    · exact calFold_successUrl_some query u _ cals u (by simp [h])

theorem syncLoop_successUrl_some (discover : String → List DiscoveredCalendar)
    (query : String → Option (List ParsedEvent)) (urls : List String)
    (st : SyncState) (x : String) (h : st.successUrl = some x) :
    (syncLoop discover query urls st).successUrl = some x := by
  induction urls generalizing st with
  | nil => exact h
  | cons u rest ih =>
    unfold syncLoop
    by_cases hc : discover u = []
    · simp only [if_pos hc]
      exact ih st h
    · simp only [if_neg hc]
      have hs2 : (calFold query u { st with discoveredAny := true } (discover u)).successUrl
          = some x :=
        calFold_successUrl_some query u _ (discover u) x (by simpa using h)
      by_cases he : (calFold query u { st with discoveredAny := true } (discover u)).allEvents = []
      · simp only [if_pos he]
        exact ih _ hs2
      · simp only [if_neg he]
        exact hs2

theorem syncLoop_discoveredAny (discover : String → List DiscoveredCalendar)
    (query : String → Option (List ParsedEvent)) (urls : List String)
    (st : SyncState) (h : st.discoveredAny = true) :
    (syncLoop discover query urls st).discoveredAny = true := by
  induction urls generalizing st with
  | nil => exact h
  | cons u rest ih =>
    unfold syncLoop
    by_cases hc : discover u = []
    · simp only [if_pos hc]
      exact ih st h
    · simp only [if_neg hc]
      have hs2 : (calFold query u { st with discoveredAny := true } (discover u)).discoveredAny
          = true := by
        rw [calFold_discoveredAny]
      by_cases he : (calFold query u { st with discoveredAny := true } (discover u)).allEvents = []
      · simp only [if_pos he]
        exact ih _ hs2
      · simp only [if_neg he]
        exact hs2

theorem syncLoop_successUrl (discover : String → List DiscoveredCalendar)
    (query : String → Option (List ParsedEvent)) (urls : List String) (d0 : Bool) :
    (syncLoop discover query urls ⟨[], none, d0⟩).successUrl =
      urls.find? (fun u => (discover u).any
        (fun c => (query (resolveCalendarUrl u c.href)).isSome)) := by
  induction urls generalizing d0 with
  | nil => rfl
  | cons u rest ih =>
    unfold syncLoop
    by_cases hc : discover u = []
    · have hpred : ((discover u).any
          (fun c => (query (resolveCalendarUrl u c.href)).isSome)) = false := by
        simp [hc]
      simp only [if_pos hc, List.find?_cons, hpred]
      exact ih d0
    · simp only [if_neg hc]
      by_cases hp : ((discover u).any
          (fun c => (query (resolveCalendarUrl u c.href)).isSome)) = true
      · have hs2 : (calFold query u ⟨[], none, true⟩ (discover u)).successUrl = some u :=
          calFold_successUrl_hit query u _ (discover u) rfl hp
        simp only [List.find?_cons, hp]
        by_cases he : (calFold query u ⟨[], none, true⟩ (discover u)).allEvents = []
        · simp only [if_pos he]
          exact syncLoop_successUrl_some discover query rest _ u hs2
        · simp only [if_neg he]
          exact hs2
      · have hall : ∀ c ∈ discover u, query (resolveCalendarUrl u c.href) = none := by
          intro c hcmem
          rcases hq : query (resolveCalendarUrl u c.href) with _ | evs
          · rfl
          · exact absurd (List.any_eq_true.mpr ⟨c, hcmem, by simp [hq]⟩) hp
        have hnoop : calFold query u ⟨[], none, true⟩ (discover u) = ⟨[], none, true⟩ :=
          calFold_noop query u _ (discover u) hall
        simp only [List.find?_cons, Bool.not_eq_true] at hp ⊢
        rw [hp, hnoop]
        simp only [if_pos rfl]
        exact ih true

theorem syncLoop_no_discovery (discover : String → List DiscoveredCalendar)
    (query : String → Option (List ParsedEvent)) (urls : List String)
    (st : SyncState)
    (h : (syncLoop discover query urls st).discoveredAny = false) :
    ∀ u ∈ urls, discover u = [] := by
  induction urls generalizing st with
  | nil => simp
  | cons u rest ih =>
    unfold syncLoop at h
    by_cases hc : discover u = []
    · simp only [if_pos hc] at h
      intro u2 hu2
      rcases List.mem_cons.mp hu2 with hu2 | hu2
      · rw [hu2]; exact hc
      · exact ih st h u2 hu2
    · exfalso
      simp only [if_neg hc] at h
      by_cases he : (calFold query u { st with discoveredAny := true } (discover u)).allEvents = []
      · simp only [if_pos he] at h
        rw [syncLoop_discoveredAny discover query rest _ (by rw [calFold_discoveredAny])] at h
        simp at h
      · simp only [if_neg he] at h
        rw [calFold_discoveredAny] at h
        simp at h

/-- Claim C4 (amended): the loop's success URL is the first candidate home
URL at which any calendar query returned an HTTP success — even one that
produced zero events (`C4_counterexample`) — and the account's stored server
URL after the run is that URL when one exists (unchanged when it equals the
stored URL), and the original stored URL otherwise. -/
theorem C4_stored_url (discover : String → List DiscoveredCalendar)
    (query : String → Option (List ParsedEvent)) (urls : List String)
    (storedUrl : String) :
    (syncLoop discover query urls ⟨[], none, false⟩).successUrl =
      urls.find? (fun u => (discover u).any
        (fun c => (query (resolveCalendarUrl u c.href)).isSome))
    ∧ (runSync discover query urls storedUrl).2 =
      (urls.find? (fun u => (discover u).any
        (fun c => (query (resolveCalendarUrl u c.href)).isSome))).getD storedUrl := by
  refine ⟨syncLoop_successUrl discover query urls false, ?_⟩
  unfold runSync
  dsimp only
  by_cases hda : (syncLoop discover query urls ⟨[], none, false⟩).discoveredAny = false
  · have hempty := syncLoop_no_discovery discover query urls _ hda
    have hfind : urls.find? (fun u => (discover u).any
        (fun c => (query (resolveCalendarUrl u c.href)).isSome)) = none := by
      apply List.find?_eq_none.mpr
      intro u hu
      simp [hempty u hu]
    simp [hda, hfind]
  · simp only [Bool.not_eq_false] at hda
    rw [hda]
    have hsu := syncLoop_successUrl discover query urls false
    rcases hfind : urls.find? (fun u => (discover u).any
        (fun c => (query (resolveCalendarUrl u c.href)).isSome)) with _ | u
    · rw [hfind] at hsu
      simp [hsu]
    · rw [hfind] at hsu
      simp only [hsu, Option.getD_some]
      by_cases heq : u = storedUrl
      · simp [heq]
      · simp [heq]

/-- A two-home server: home `u1` exposes calendar `c1` whose query succeeds
with zero events; home `u2` exposes `c2` whose query succeeds with one
event. -/
def twoHomeDiscover : String → List DiscoveredCalendar := fun u =>
  if u = "u1" then [⟨"c1", "Cal1", true⟩]
  else if u = "u2" then [⟨"c2", "Cal2", true⟩]
  else []

def twoHomeEvent : ParsedEvent := ⟨"e1", "Meet", 100, 200, false⟩

def twoHomeQuery : String → Option (List ParsedEvent) := fun cu =>
  if cu = "u1/c1" then some []
  else if cu = "u2/c2" then some [twoHomeEvent]
  else none

/-- Claim C4 is false as stated: home `u1` produces an empty event set and
`u2` produces the events, yet the stored server URL is rewritten to `u1`. -/
theorem C4_counterexample :
    runSync twoHomeDiscover twoHomeQuery ["u1", "u2"] "u0" =
      (SyncOutcome.ok [twoHomeEvent] (some "u1"), "u1")
    ∧ twoHomeQuery (resolveCalendarUrl "u1" "c1") = some []
    ∧ twoHomeQuery (resolveCalendarUrl "u2" "c2") = some [twoHomeEvent]
    ∧ ("u1" : String) ≠ "u2" := by
  refine ⟨by decide, by decide, by decide, by decide⟩

/-- Claim C1 (amended): a 401/403 on a discovery probe is treated like any
other failed probe — the candidate home URL is skipped and the loop
continues with the remaining candidates unchanged — and a 401/403 on a
calendar query makes `queryCalendarEvents` report an unqueryable collection
(`none`), not a distinct authentication error.  (The original claim — that
the sync aborts immediately with an authentication error — is refuted by
`C1_counterexample`.) -/
theorem C1_auth_skip (parseMS : String → List DiscoveredCalendar)
    (propfind : String → Nat × String)
    (query : String → Option (List ParsedEvent))
    (u : String) (rest : List String) (st : SyncState)
    (h : (propfind u).1 = 401 ∨ (propfind u).1 = 403) :
    syncLoop (fun w => discoverCalendars parseMS (propfind w)) query (u :: rest) st =
      syncLoop (fun w => discoverCalendars parseMS (propfind w)) query rest st
    ∧ ∀ (extract : String → List String) (jsParse : String → Option Instant)
        (tz : Int) (rangeStart rangeEnd : Instant) (resp : Nat × String),
        resp.1 = 401 ∨ resp.1 = 403 →
        queryCalendarEvents extract jsParse tz rangeStart rangeEnd resp = none := by
  constructor
  · have hd : discoverCalendars parseMS (propfind u) = [] := by
      unfold discoverCalendars
      rcases h with h | h <;> rw [h] <;>
        simp [show statusOk 401 = false from by decide,
          show statusOk 403 = false from by decide]
    conv in syncLoop _ query (u :: rest) st => unfold syncLoop
    simp [hd]
  · intro extract jsParse tz rangeStart rangeEnd resp hr
    unfold queryCalendarEvents
    rcases hr with hr | hr <;> rw [hr] <;>
      simp [show statusOk 401 = false from by decide,
        show statusOk 403 = false from by decide]

/-- A server whose first candidate home answers the discovery probe with
401 and whose second candidate exposes one calendar with one event. -/
def rejectingPropfind : String → Nat × String := fun u =>
  if u = "u1" then (401, "")
  else if u = "u2" then (207, "body2")
  else (404, "")

def rejectingParseMS : String → List DiscoveredCalendar := fun b =>
  if b = "body2" then [⟨"c2", "Cal2", true⟩] else []

def rejectingReport : String → Nat × String := fun cu =>
  if cu = "u2/c2" then
    (200, "BEGIN:VEVENT\nUID:e\nDTSTART:20240105T000000Z\nDTEND:20240106T000000Z\nEND:VEVENT")
  else (404, "")

def rejectingEvent : ParsedEvent :=
  ⟨"e", "Untitled Event", utcMillis 2024 1 5 0 0 0, utcMillis 2024 1 6 0 0 0, false⟩

set_option maxRecDepth 20000 in
/-- Claim C1 is false as stated: the first candidate's discovery probe
returns 401, yet the run does not abort with an authentication error — it
proceeds to the second candidate and completes successfully. -/
theorem C1_counterexample :
    (rejectingPropfind "u1").1 = 401
    ∧ runSync (fun u => discoverCalendars rejectingParseMS (rejectingPropfind u))
        (fun cu => queryCalendarEvents (fun s => [s]) (fun _ => none) 0
          (utcMillis 2024 1 1 0 0 0) (utcMillis 2024 2 1 0 0 0) (rejectingReport cu))
        ["u1", "u2"] "u0" =
      (SyncOutcome.ok [rejectingEvent] (some "u2"), "u2") := by
  refine ⟨by decide, by decide⟩

/-- Witness for `C1_auth_skip` at a concrete 401-answering server. -/
theorem C1_witness :
    ((rejectingPropfind "u1").1 = 401 ∨ (rejectingPropfind "u1").1 = 403)
    ∧ syncLoop (fun w => discoverCalendars rejectingParseMS (rejectingPropfind w))
        (fun cu => queryCalendarEvents (fun s => [s]) (fun _ => none) 0 0 1 (rejectingReport cu))
        ["u1", "u2"] ⟨[], none, false⟩ =
      syncLoop (fun w => discoverCalendars rejectingParseMS (rejectingPropfind w))
        (fun cu => queryCalendarEvents (fun s => [s]) (fun _ => none) 0 0 1 (rejectingReport cu))
        ["u2"] ⟨[], none, false⟩
    ∧ queryCalendarEvents (fun s => [s]) (fun _ => none) 0 0 1 (401, "irrelevant") = none := by
  refine ⟨Or.inl (by decide), ?_, ?_⟩
  · exact (C1_auth_skip rejectingParseMS rejectingPropfind
      (fun cu => queryCalendarEvents (fun s => [s]) (fun _ => none) 0 0 1 (rejectingReport cu))
      "u1" ["u2"] ⟨[], none, false⟩ (Or.inl (by decide))).1
  · exact (C1_auth_skip rejectingParseMS rejectingPropfind
      (fun cu => queryCalendarEvents (fun s => [s]) (fun _ => none) 0 0 1 (rejectingReport cu))
      "u1" ["u2"] ⟨[], none, false⟩ (Or.inl (by decide))).2
      (fun s => [s]) (fun _ => none) 0 0 1 (401, "irrelevant") (Or.inl rfl)

/-! ## Splitting lemmas for the trailing-fragment analysis -/

/-- Apply `f` to the last element of a list. -/
def mapLast {α : Type} (f : α → α) : List α → List α
  | [] => []
  | [x] => [f x]
  | x :: y :: xs => x :: mapLast f (y :: xs)

theorem mapLast_drop_one {α : Type} (f : α → α) (l : List α) :
    (mapLast f l).drop 1 = mapLast f (l.drop 1) := by
  match l with
  | [] => rfl
  | [x] => rfl
  | x :: y :: xs => rfl

theorem filterMap_mapLast {α β : Type} (f : α → α) (g : α → Option β)
    (h : ∀ x, g (f x) = g x) (l : List α) :
    (mapLast f l).filterMap g = l.filterMap g := by
  match l with
  | [] => rfl
  | [x] => simp [mapLast, List.filterMap, h x]
  | x :: y :: xs =>
    simp only [mapLast]
    rw [List.filterMap_cons, List.filterMap_cons, filterMap_mapLast f g h (y :: xs)]

theorem listSplitF_ne_nil (sep : List Char) (fuel : Nat) (l : List Char) :
    listSplitF sep fuel l ≠ [] := by
  match fuel, l with
  | _, [] => simp [listSplitF]
  | 0, x :: xs => simp [listSplitF]
  | fuel + 1, x :: xs =>
    unfold listSplitF
    by_cases h : sep ≠ [] ∧ sep.isPrefixOf (x :: xs)
    · simp [h]
    · simp only [if_neg h]
      rcases hrec : listSplitF sep fuel xs with _ | ⟨y, ys⟩
      · simp
      · simp

theorem listSplitF_fuel (sep : List Char) (f1 f2 : Nat) (l : List Char)
    (h1 : l.length ≤ f1) (h2 : l.length ≤ f2) :
    listSplitF sep f1 l = listSplitF sep f2 l := by
  induction f1 generalizing l f2 with
  | zero =>
    have : l = [] := by
      cases l with
      | nil => rfl
      | cons x xs => simp at h1
    subst this
    cases f2 <;> rfl
  | succ n ih =>
    cases l with
    | nil => cases f2 <;> rfl
    | cons x xs =>
      cases f2 with
      | zero => simp at h2
      | succ k =>
        unfold listSplitF
        by_cases h : sep ≠ [] ∧ sep.isPrefixOf (x :: xs)
        · simp only [if_pos h]
          have hsl : 1 ≤ sep.length := by
            cases hsep : sep with
            | nil => exact absurd hsep h.1
            | cons a b => simp
          simp only [List.length_cons] at h1 h2
          have hd : ((x :: xs).drop sep.length).length ≤ n := by
            simp only [List.length_drop, List.length_cons]
            omega
          have hd2 : ((x :: xs).drop sep.length).length ≤ k := by
            simp only [List.length_drop, List.length_cons]
            omega
          rw [ih k ((x :: xs).drop sep.length) hd hd2]
        · simp only [if_neg h]
          rw [ih k xs (by simp only [List.length_cons] at h1 ⊢; omega)
            (by simp only [List.length_cons] at h2 ⊢; omega)]

theorem listSplitF_no_occur (sep : List Char) (_hsep : sep ≠ []) (l : List Char)
    (hno : ¬ sep <:+: l) :
    ∀ fuel, listSplitF sep fuel l = [l] := by
  induction l with
  | nil => intro fuel; cases fuel <;> rfl
  | cons x xs ih =>
    intro fuel
    cases fuel with
    | zero => rfl
    | succ n =>
      unfold listSplitF
      have hp : ¬ (sep ≠ [] ∧ sep.isPrefixOf (x :: xs)) := by
        rintro ⟨_, hpre⟩
        exact hno (List.IsPrefix.isInfix (List.isPrefixOf_iff_prefix.mp hpre))
      simp only [if_neg hp]
      have hno2 : ¬ sep <:+: xs := fun hh => hno (hh.trans (List.suffix_cons x xs).isInfix)
      rw [ih hno2 n]

theorem listSplitF_append_last (sep m : List Char) (hsep : sep ≠ [])
    (hno : ¬ sep <:+: m)
    (hspan : ∀ j < sep.length, 0 < j → ¬ (sep.drop j) <+: m) :
    ∀ fuel xs, xs.length + m.length ≤ fuel →
      listSplitF sep fuel (xs ++ m) = mapLast (fun c => c ++ m) (listSplitF sep fuel xs) := by
  intro fuel
  induction fuel with
  | zero =>
    intro xs hlen
    have hx : xs = [] := by cases xs <;> simp_all
    have hm : m = [] := by cases m <;> simp_all
    subst hx; subst hm; rfl
  | succ n ih =>
    intro xs hlen
    cases xs with
    | nil =>
      rw [List.nil_append, listSplitF_no_occur sep hsep m hno]
      rfl
    | cons x xs2 =>
      simp only [List.length_cons] at hlen
      by_cases hpre2 : sep.isPrefixOf ((x :: xs2) ++ m) = true
      · have hpre : sep.isPrefixOf (x :: xs2) = true := by
          by_contra hnp
          have hp := List.isPrefixOf_iff_prefix.mp hpre2
          by_cases hlen2 : sep.length ≤ (x :: xs2).length
          · refine hnp (List.isPrefixOf_iff_prefix.mpr ?_)
            have htake := List.prefix_iff_eq_take.mp hp
            rw [List.take_append_of_le_length hlen2] at htake
            rw [List.prefix_iff_eq_take]
            exact htake
          · have hj1 : 0 < (x :: xs2).length := by simp
            have hj2 : (x :: xs2).length < sep.length := by omega
            refine hspan (x :: xs2).length hj2 hj1 ?_
            obtain ⟨t, ht⟩ := hp
            refine ⟨t, ?_⟩
            have hdd := congrArg (List.drop (x :: xs2).length) ht
            rwa [List.drop_append_of_le_length (le_of_lt hj2), List.drop_left] at hdd
        have hslen : sep.length ≤ (x :: xs2).length :=
          (List.isPrefixOf_iff_prefix.mp hpre).length_le
        rw [show (x :: xs2) ++ m = x :: (xs2 ++ m) from rfl]
        unfold listSplitF
        rw [if_pos ⟨hsep, show sep.isPrefixOf (x :: (xs2 ++ m)) = true from hpre2⟩,
          if_pos ⟨hsep, hpre⟩]
        have hdrop : (x :: (xs2 ++ m)).drop sep.length = ((x :: xs2).drop sep.length) ++ m := by
          rw [show x :: (xs2 ++ m) = (x :: xs2) ++ m from rfl,
            List.drop_append_of_le_length hslen]
        rw [hdrop]
        have hdlen : ((x :: xs2).drop sep.length).length + m.length ≤ n := by
          simp only [List.length_drop, List.length_cons]
          have : 1 ≤ sep.length := by
            cases hc : sep with
            | nil => exact absurd hc hsep
            | cons a b => simp
          omega
        rw [ih ((x :: xs2).drop sep.length) hdlen]
        rcases hL : listSplitF sep n ((x :: xs2).drop sep.length) with _ | ⟨y, ys⟩
        · exact absurd hL (listSplitF_ne_nil sep n _)
        · rfl
      · have hpre : ¬ sep.isPrefixOf (x :: xs2) = true := by
          intro hp
          refine hpre2 (List.isPrefixOf_iff_prefix.mpr ?_)
          exact (List.isPrefixOf_iff_prefix.mp hp).trans (List.prefix_append _ _)
        rw [show (x :: xs2) ++ m = x :: (xs2 ++ m) from rfl]
        unfold listSplitF
        rw [if_neg (fun hh => hpre2 hh.2), if_neg (fun hh => hpre hh.2)]
        have ihx := ih xs2 (by omega)
        rw [ihx]
        rcases hL : listSplitF sep n xs2 with _ | ⟨y, ys⟩
        · exact absurd hL (listSplitF_ne_nil sep n _)
        · rcases ys with _ | ⟨z, zs⟩
          · rfl
          · rfl

theorem listSplitF_append_sep_head (sep : List Char) (hsep : sep ≠ [])
    (hself : ∀ j < sep.length, 0 < j → ¬ (sep.drop j) <+: sep) :
    ∀ fuel xs, xs.length + sep.length ≤ fuel →
      (listSplitF sep fuel (xs ++ sep)).headD [] = (listSplitF sep fuel xs).headD [] := by
  intro fuel
  induction fuel with
  | zero =>
    intro xs hlen
    have : sep = [] := by cases sep <;> simp_all
    exact absurd this hsep
  | succ n ih =>
    intro xs hlen
    cases xs with
    | nil =>
      rw [List.nil_append]
      rcases hs : sep with _ | ⟨s0, srest⟩
      · exact absurd hs hsep
      · conv_lhs => rw [← hs]
        rw [show listSplitF sep (n + 1) sep = listSplitF sep (n + 1) (s0 :: srest) from by rw [hs]]
        unfold listSplitF
        rw [if_pos ⟨hsep, by rw [hs]; exact List.isPrefixOf_iff_prefix.mpr List.prefix_rfl⟩]
        rfl
    | cons x xs2 =>
      simp only [List.length_cons] at hlen
      by_cases hpre2 : sep.isPrefixOf ((x :: xs2) ++ sep) = true
      · have hpre : sep.isPrefixOf (x :: xs2) = true := by
          by_contra hnp
          have hp := List.isPrefixOf_iff_prefix.mp hpre2
          by_cases hlen2 : sep.length ≤ (x :: xs2).length
          · refine hnp (List.isPrefixOf_iff_prefix.mpr ?_)
            have htake := List.prefix_iff_eq_take.mp hp
            rw [List.take_append_of_le_length hlen2] at htake
            rw [List.prefix_iff_eq_take]
            exact htake
          · have hj1 : 0 < (x :: xs2).length := by simp
            have hj2 : (x :: xs2).length < sep.length := by omega
            refine hself (x :: xs2).length hj2 hj1 ?_
            obtain ⟨t, ht⟩ := hp
            refine ⟨t, ?_⟩
            have hdd := congrArg (List.drop (x :: xs2).length) ht
            rwa [List.drop_append_of_le_length (le_of_lt hj2), List.drop_left] at hdd
        rw [show (x :: xs2) ++ sep = x :: (xs2 ++ sep) from rfl]
        unfold listSplitF
        rw [if_pos ⟨hsep, show sep.isPrefixOf (x :: (xs2 ++ sep)) = true from hpre2⟩,
          if_pos ⟨hsep, hpre⟩]
        rfl
      · have hpre : ¬ sep.isPrefixOf (x :: xs2) = true := by
          intro hp
          refine hpre2 (List.isPrefixOf_iff_prefix.mpr ?_)
          exact (List.isPrefixOf_iff_prefix.mp hp).trans (List.prefix_append _ _)
        rw [show (x :: xs2) ++ sep = x :: (xs2 ++ sep) from rfl]
        unfold listSplitF
        rw [if_neg (fun hh => hpre2 hh.2), if_neg (fun hh => hpre hh.2)]
        have ihx := ih xs2 (by omega)
        rcases hL2 : listSplitF sep n (xs2 ++ sep) with _ | ⟨y2, ys2⟩
        · exact absurd hL2 (listSplitF_ne_nil sep n _)
        · rcases hL : listSplitF sep n xs2 with _ | ⟨y, ys⟩
          · exact absurd hL (listSplitF_ne_nil sep n _)
          · rw [hL2, hL] at ihx
            simp only [List.headD_cons] at ihx
            simp [ihx]

theorem unfoldChars_rn (c : Char) (r : List Char) :
    unfoldChars ('\r' :: '\n' :: c :: r) =
      if c = ' ' ∨ c = '\t' then unfoldChars r else '\r' :: '\n' :: unfoldChars (c :: r) := rfl

theorem unfoldChars_n (c : Char) (r : List Char) :
    unfoldChars ('\n' :: c :: r) =
      if c = ' ' ∨ c = '\t' then unfoldChars r else '\n' :: unfoldChars (c :: r) := rfl

theorem unfoldChars_cons_ne (c : Char) (rest : List Char)
    (h1 : c ≠ '\r') (h2 : c ≠ '\n') :
    unfoldChars (c :: rest) = c :: unfoldChars rest := by
  rw [unfoldChars.eq_def]
  split
  · rename_i heq
    injection heq with hc _
    exact absurd hc h1
  · rename_i heq
    injection heq with hc _
    exact absurd hc h2
  · rename_i heq
    injection heq with hc hr
    rw [hc, hr]
  · rename_i heq
    exact absurd heq (by simp)

theorem unfoldChars_r_ne (c : Char) (rest : List Char) (h : c ≠ '\n') :
    unfoldChars ('\r' :: c :: rest) = '\r' :: unfoldChars (c :: rest) := by
  rw [unfoldChars.eq_def]
  split
  · rename_i heq
    injection heq with _ heq2
    injection heq2 with hc _
    exact absurd hc h
  · rename_i heq
    injection heq with hc _
    exact absurd hc (by decide)
  · rename_i heq
    injection heq with hc hr
    rw [hc, hr]
  · rename_i heq
    exact absurd heq (by simp)

theorem unfoldChars_append (m : List Char)
    (hm : ∀ c ∈ m.head?, c ≠ ' ' ∧ c ≠ '\t' ∧ c ≠ '\n') :
    ∀ n l, l.length ≤ n → unfoldChars (l ++ m) = unfoldChars l ++ unfoldChars m := by
  intro n
  induction n with
  | zero =>
    intro l hl
    have h0 : l = [] := by cases l <;> simp_all
    subst h0
    simp [show unfoldChars ([] : List Char) = [] from rfl]
  | succ n ih =>
    intro l hl
    rcases l with _ | ⟨c1, l1⟩
    · simp [show unfoldChars ([] : List Char) = [] from rfl]
    rcases l1 with _ | ⟨c2, l2⟩
    · by_cases h1 : c1 = '\r'
      · subst h1
        rcases m with _ | ⟨d, mr⟩
        · simp [show unfoldChars ([] : List Char) = [] from rfl]
        · have hd := hm d (by simp)
          rw [show ['\r'] ++ d :: mr = '\r' :: d :: mr from rfl,
            unfoldChars_r_ne d mr hd.2.2,
            show unfoldChars ['\r'] = ['\r'] from rfl]
          rfl
      · by_cases h2 : c1 = '\n'
        · subst h2
          rcases m with _ | ⟨d, mr⟩
          · simp [show unfoldChars ([] : List Char) = [] from rfl]
          · have hd := hm d (by simp)
            rw [show ['\n'] ++ d :: mr = '\n' :: d :: mr from rfl,
              unfoldChars_n d mr,
              if_neg (by rintro (hh | hh) <;> [exact hd.1 hh; exact hd.2.1 hh]),
              show unfoldChars ['\n'] = ['\n'] from rfl]
            rfl
        · rw [show [c1] ++ m = c1 :: m from rfl, unfoldChars_cons_ne c1 m h1 h2,
            show unfoldChars [c1] = c1 :: unfoldChars [] from unfoldChars_cons_ne c1 [] h1 h2]
          rfl
    · simp only [List.length_cons] at hl
      by_cases h1 : c1 = '\r'
      · subst h1
        by_cases h2 : c2 = '\n'
        · subst h2
          rcases l2 with _ | ⟨c3, l3⟩
          · rcases m with _ | ⟨d, mr⟩
            · simp [show unfoldChars ([] : List Char) = [] from rfl]
            · have hd := hm d (by simp)
              rw [show ('\r' :: '\n' :: ([] : List Char)) ++ d :: mr = '\r' :: '\n' :: d :: mr
                  from rfl,
                unfoldChars_rn d mr,
                if_neg (by rintro (hh | hh) <;> [exact hd.1 hh; exact hd.2.1 hh]),
                show unfoldChars ['\r', '\n'] = ['\r', '\n'] from rfl]
              rfl
          · rw [show ('\r' :: '\n' :: c3 :: l3) ++ m = '\r' :: '\n' :: c3 :: (l3 ++ m) from rfl,
              unfoldChars_rn c3 (l3 ++ m), unfoldChars_rn c3 l3]
            by_cases hws : c3 = ' ' ∨ c3 = '\t'
            · rw [if_pos hws, if_pos hws]
              exact ih l3 (by simp only [List.length_cons] at hl; omega)
            · rw [if_neg hws, if_neg hws]
              have ihx := ih (c3 :: l3) (by omega)
              rw [show (c3 :: l3) ++ m = c3 :: (l3 ++ m) from rfl] at ihx
              rw [ihx]
              rfl
        · rw [show ('\r' :: c2 :: l2) ++ m = '\r' :: c2 :: (l2 ++ m) from rfl,
            unfoldChars_r_ne c2 (l2 ++ m) h2, unfoldChars_r_ne c2 l2 h2]
          have ihx := ih (c2 :: l2) (by simp only [List.length_cons]; omega)
          rw [show (c2 :: l2) ++ m = c2 :: (l2 ++ m) from rfl] at ihx
          rw [ihx]
          rfl
      · by_cases h2 : c1 = '\n'
        · subst h2
          rw [show ('\n' :: c2 :: l2) ++ m = '\n' :: c2 :: (l2 ++ m) from rfl,
            unfoldChars_n c2 (l2 ++ m), unfoldChars_n c2 l2]
          by_cases hws : c2 = ' ' ∨ c2 = '\t'
          · rw [if_pos hws, if_pos hws]
            exact ih l2 (by omega)
          · rw [if_neg hws, if_neg hws]
            have ihx := ih (c2 :: l2) (by simp only [List.length_cons]; omega)
            rw [show (c2 :: l2) ++ m = c2 :: (l2 ++ m) from rfl] at ihx
            rw [ihx]
            rfl
        · rw [show (c1 :: c2 :: l2) ++ m = c1 :: ((c2 :: l2) ++ m) from rfl,
            unfoldChars_cons_ne c1 ((c2 :: l2) ++ m) h1 h2,
            unfoldChars_cons_ne c1 (c2 :: l2) h1 h2,
            ih (c2 :: l2) (by simp only [List.length_cons]; omega)]
          rfl

theorem str_append_toList (a b : String) : (a ++ b).toList = a.toList ++ b.toList := by
  cases a
  cases b
  rfl

theorem parseICSEvents_chars (jsParse : String → Option Instant) (tz : Int)
    (s : String) (hs : s ≠ "") :
    parseICSEvents jsParse tz s =
      ((listSplit ("BEGIN:VEVENT".toList) (unfoldChars s.toList)).drop 1).filterMap
        (fun cs => parseSingleVEvent jsParse tz
          (String.mk ((listSplit ("END:VEVENT".toList) cs).headD []))) := by
  unfold parseICSEvents
  rw [if_neg hs]
  dsimp only
  unfold jsSplit
  rw [show (String.mk (unfoldChars s.toList)).toList = unfoldChars s.toList from rfl]
  rw [← List.map_drop, List.filterMap_map]
  congr 1
  funext cs
  show parseSingleVEvent jsParse tz
      (((listSplit ("END:VEVENT".toList) (String.mk cs).toList).map String.mk).headD "") = _
  rw [show (String.mk cs).toList = cs from rfl]
  rcases hL : listSplit ("END:VEVENT".toList) cs with _ | ⟨y, ys⟩
  · exact absurd hL (listSplitF_ne_nil _ _ _)
  · simp

/-- Claim C5 (amended): a trailing fragment opened by `BEGIN:VEVENT` but
lacking a closing `END:VEVENT` is parsed as if the closing marker were
appended at the end of the input — appending `END:VEVENT` to any input never
changes the parse — so such a fragment does contribute a parsed event when
it holds a parseable `DTSTART` (`C5_counterexample`), rather than being
discarded. -/
theorem C5_trailing_fragment (jsParse : String → Option Instant) (tz : Int) (t : String) :
    parseICSEvents jsParse tz (t ++ "END:VEVENT") = parseICSEvents jsParse tz t := by
  by_cases ht : t = ""
  · subst ht
    rfl
  · have htE : t ++ "END:VEVENT" ≠ "" := by
      intro hh
      have h2 := congrArg String.toList hh
      rw [str_append_toList] at h2
      rcases List.append_eq_nil.mp h2 with ⟨_, h3⟩
      exact absurd h3 (by decide)
    rw [parseICSEvents_chars jsParse tz _ htE, parseICSEvents_chars jsParse tz t ht,
      str_append_toList]
    have hU : unfoldChars (t.toList ++ "END:VEVENT".toList) =
        unfoldChars t.toList ++ unfoldChars ("END:VEVENT".toList) := by
      refine unfoldChars_append ("END:VEVENT".toList) ?_ t.toList.length t.toList le_rfl
      intro c hc
      simp at hc
      subst hc
      decide
    rw [hU, show unfoldChars ("END:VEVENT".toList) = "END:VEVENT".toList from rfl]
    have hS1 : listSplit ("BEGIN:VEVENT".toList)
          (unfoldChars t.toList ++ "END:VEVENT".toList) =
        mapLast (fun c => c ++ "END:VEVENT".toList)
          (listSplit ("BEGIN:VEVENT".toList) (unfoldChars t.toList)) := by
      unfold listSplit
      rw [listSplitF_append_last ("BEGIN:VEVENT".toList) ("END:VEVENT".toList)
        (by decide) (by decide) (by decide)
        ((unfoldChars t.toList ++ "END:VEVENT".toList).length) (unfoldChars t.toList)
        (by simp)]
      congr 1
      exact listSplitF_fuel _ _ _ (unfoldChars t.toList) (by simp) le_rfl
    rw [hS1, mapLast_drop_one]
    refine filterMap_mapLast _ _ ?_ _
    intro cs
    have hhd : (listSplit ("END:VEVENT".toList) (cs ++ "END:VEVENT".toList)).headD [] =
        (listSplit ("END:VEVENT".toList) cs).headD [] := by
      unfold listSplit
      rw [listSplitF_append_sep_head ("END:VEVENT".toList) (by decide) (by decide)
        ((cs ++ "END:VEVENT".toList).length) cs (by simp)]
      congr 1
      exact listSplitF_fuel _ _ _ cs (by simp) le_rfl
    rw [hhd]

/-- Claim C5 is false as stated: an unclosed trailing `BEGIN:VEVENT`
fragment with a parseable `DTSTART` contributes a parsed event instead of
being discarded. -/
theorem C5_counterexample :
    parseICSEvents (fun _ => none) 0 "BEGIN:VEVENT\nUID:u1\nDTSTART:20240101T000000Z" =
      [⟨"u1", "Untitled Event", utcMillis 2024 1 1 0 0 0,
        utcMillis 2024 1 1 0 0 0 + 60 * 60 * 1000, false⟩] := by
  decide
